import Mathlib

/-!
Verification development for the restaurant-discovery repository.

The TypeScript core is shallowly embedded: each Lean definition below is a
direct translation of one source function (same names where Lean allows it).
Strings are modelled as Lean strings over their character lists; JS numbers
holding integers are modelled as Int or Nat; fractional values (confidence,
evidence ratio) as rationals; calendar dates at day granularity as natural
day numbers with the Unix weekday convention.
-/

namespace Datenight

/-- ASCII lowercase of one character, as JS toLowerCase acts on ASCII. -/
def lowerChar (c : Char) : Char :=
  if 'A' ≤ c ∧ c ≤ 'Z' then Char.ofNat (c.toNat + 32) else c

def isAsciiLower (c : Char) : Bool := 'a' ≤ c && c ≤ 'z'

def isDigitCh (c : Char) : Bool := '0' ≤ c && c ≤ '9'

/-- The JS whitespace class (backslash-s) restricted to ASCII. -/
def isSpaceCh (c : Char) : Bool :=
  c == ' ' || c == '\t' || c == '\n' || c == '\r'

/-- Word character for JS word boundaries: [A-Za-z0-9_]. -/
def isWordCh (c : Char) : Bool :=
  isDigitCh c || isAsciiLower c || ('A' ≤ c && c ≤ 'Z') || c == '_'

/-- Collapse runs of the space character into one occurrence. -/
def dedupSpaces : List Char → List Char
  | [] => []
  | [c] => [c]
  | a :: b :: rest =>
    if a == ' ' && b == ' ' then dedupSpaces (b :: rest)
    else a :: dedupSpaces (b :: rest)

/-- Drop leading spaces. -/
def trimLeft (l : List Char) : List Char := l.dropWhile (fun c => c == ' ')

/-- JS String.trim after all whitespace has been mapped to the space char. -/
def trimChars (l : List Char) : List Char :=
  ((trimLeft l).reverse.dropWhile (fun c => c == ' ')).reverse

/-- JS String.trim on raw input (drops the whitespace class at both ends). -/
def trimWsChars (l : List Char) : List Char :=
  (((l.dropWhile isSpaceCh).reverse).dropWhile isSpaceCh).reverse

/-- normalize from the recommend route: lowercase, strip characters outside
[a-z0-9-\s], turn hyphens into spaces, collapse whitespace, trim. -/
def normalizeChars (s : List Char) : List Char :=
  let lowered := s.map lowerChar
  let cleaned := lowered.map (fun c =>
    if isAsciiLower c || isDigitCh c || c == '-' || isSpaceCh c then c else ' ')
  let dehyphened := cleaned.map (fun c => if c == '-' then ' ' else c)
  let spaced := dehyphened.map (fun c => if isSpaceCh c then ' ' else c)
  trimChars (dedupSpaces spaced)

def normalize (s : String) : String := String.mk (normalizeChars s.toList)

/-- normalizePhrase from the plan client (same body as normalize). -/
def normalizePhrase (s : String) : String := String.mk (normalizeChars s.toList)

/-- normalizeText from the health route: like normalize but without the
hyphen class (hyphens are stripped to spaces with the other symbols). -/
def normalizeTextChars (s : List Char) : List Char :=
  let lowered := s.map lowerChar
  let cleaned := lowered.map (fun c =>
    if isAsciiLower c || isDigitCh c || isSpaceCh c then c else ' ')
  let spaced := cleaned.map (fun c => if isSpaceCh c then ' ' else c)
  trimChars (dedupSpaces spaced)

def normalizeText (s : String) : String := String.mk (normalizeTextChars s.toList)

/-- normalizeRestaurantName from the curation module (same body as
normalizeText). -/
def normalizeRestaurantName (s : String) : String :=
  String.mk (normalizeTextChars s.toList)

/-- Does the haystack start with the needle? -/
def startsWithChars : List Char → List Char → Bool
  | _, [] => true
  | [], _ :: _ => false
  | c :: cs, d :: ds => c == d && startsWithChars cs ds

/-- JS String.includes: the needle occurs contiguously in the haystack. -/
def containsChars (hay needle : List Char) : Bool :=
  match hay with
  | [] => needle.isEmpty
  | _ :: rest => startsWithChars hay needle || containsChars rest needle

def containsStr (hay needle : String) : Bool :=
  containsChars hay.toList needle.toList

/-- unique from the recommend route: normalize entries, drop empties,
de-duplicate preserving first-seen order. -/
def unique (items : List String) : List String :=
  items.foldl (fun out item =>
    let n := normalize item
    if n = "" || out.contains n then out else out ++ [n]) []

/-- uniquePhrases from the plan client (same body as unique, over
normalizePhrase). -/
def uniquePhrases (items : List String) : List String :=
  items.foldl (fun out raw =>
    let n := normalizePhrase raw
    if n = "" || out.contains n then out else out ++ [n]) []

/-- Array.from(new Set(list)): first-occurrence de-duplication. -/
def dedupStrings (l : List String) : List String :=
  l.foldl (fun out id => if out.contains id then out else out ++ [id]) []

/-! ## Recommend pipeline data model (recommend route, latest variant) -/

/-- Candidate provenance: catalog row or live web result. -/
inductive CandSource where
  | db
  | web
deriving DecidableEq, Repr

/-- PlanCriteria of the recommend route (all fields optional in TS). -/
structure PlanCriteria where
  dateStart : Option String := none
  dateEnd : Option String := none
  partySize : Option Int := none
  vibeTags : Option (List String) := none
  minPrice : Option Int := none
  maxPrice : Option Int := none
deriving DecidableEq, Repr

structure Candidate where
  id : String
  name : String
  neighborhood : Option String := none
  priceLevel : Option Int := none
  bookingUrl : Option String := none
  notes : Option String := none
  source : CandSource := .db
  tagsText : String := ""
deriving DecidableEq, Repr

structure Recommendation where
  id : String
  name : String
  neighborhood : Option String
  priceLevel : Option Int
  bookingUrl : Option String
  source : CandSource
  reason : String
  tradeoff : String
deriving DecidableEq, Repr

def HARD_DIETARY : List String :=
  ["vegetarian", "vegan", "gluten free", "gluten-free", "dairy free",
   "halal", "kosher", "pescatarian"]

def CUISINE_HINTS : List String :=
  ["italian", "mexican", "japanese", "sushi", "korean", "chinese", "thai",
   "vietnamese", "french", "spanish", "mediterranean", "steakhouse",
   "seafood", "pizza", "ramen", "omakase"]

/-- CUISINE_SYNONYMS record, in insertion order (Object.entries order). -/
def CUISINE_SYNONYMS : List (String × List String) :=
  [("sushi", ["sushi", "nigiri", "sashimi", "omakase", "izakaya", "temaki"]),
   ("japanese", ["japanese", "sushi", "ramen", "izakaya", "omakase", "yakitori"]),
   ("italian", ["italian", "pasta", "trattoria", "osteria", "pizza"]),
   ("mexican", ["mexican", "taco", "taqueria"]),
   ("chinese", ["chinese", "dim sum", "szechuan", "sichuan"]),
   ("thai", ["thai"]),
   ("vietnamese", ["vietnamese", "pho"]),
   ("korean", ["korean", "bbq", "bulgogi"]),
   ("french", ["french", "bistro", "brasserie"]),
   ("spanish", ["spanish", "tapas"]),
   ("mediterranean", ["mediterranean", "middle eastern", "levantine"]),
   ("seafood", ["seafood", "oyster", "raw bar"]),
   ("steakhouse", ["steakhouse", "steak"]),
   ("pizza", ["pizza", "pizzeria"]),
   ("ramen", ["ramen"]),
   ("omakase", ["omakase", "sushi"])]

def cuisineIntentFromTags (tags : List String) : List String :=
  let normalized := unique tags
  CUISINE_SYNONYMS.foldl (fun intent p =>
    let hasMatch := normalized.any (fun t =>
      t == p.1 || p.2.any (fun s => containsStr t s || containsStr s t))
    if hasMatch then intent ++ [p.1] else intent) []

def textMatchesCuisine (hay : String) (cuisineIntent : List String) : Bool :=
  if cuisineIntent.isEmpty then true
  else cuisineIntent.any (fun cuisine =>
    let keywords := match CUISINE_SYNONYMS.find? (fun p => p.1 == cuisine) with
      | some p => p.2
      | none => [cuisine]
    keywords.any (fun k => containsStr hay (normalize k)))

/-- The searchable text of a candidate: name, neighborhood, notes and tag
text joined by single spaces, then normalized (the hay string built inline
at each use site in the source). -/
def searchableText (c : Candidate) : String :=
  normalize (c.name ++ " " ++ c.neighborhood.getD "" ++ " " ++
    c.notes.getD "" ++ " " ++ c.tagsText)

def matchesHardConstraints (c : Candidate) (criteria : PlanCriteria) : Bool :=
  let priceViolation :=
    match c.priceLevel with
    | none => false
    | some p =>
      (match criteria.minPrice with | some m => p < m | none => false) ||
      (match criteria.maxPrice with | some m => m < p | none => false)
  if priceViolation then false
  else
    let tags := unique (criteria.vibeTags.getD [])
    let cuisineIntent := cuisineIntentFromTags tags
    let hardDietary := tags.filter (fun t => HARD_DIETARY.contains t)
    let hay := searchableText c
    if !textMatchesCuisine hay cuisineIntent then false
    else if hardDietary.isEmpty then true
    else hardDietary.all (fun t => containsStr hay t)

def scoreCandidate (c : Candidate) (criteria : PlanCriteria)
    (profileNeighborhoods : List String)
    (profileMin profileMax : Option Int) : Int × List String :=
  let tags := unique (criteria.vibeTags.getD [])
  let cuisineIntent := cuisineIntentFromTags tags
  let hay := searchableText c
  let matchedCuisine := cuisineIntent.filter (fun cuisine =>
    let keywords : List String :=
      match CUISINE_SYNONYMS.find? (fun p => p.1 == cuisine) with
      | some p => p.2
      | none => [cuisine]
    keywords.any (fun k => containsStr hay (normalize k)))
  let (s1, r1) : Int × List String :=
    if !matchedCuisine.isEmpty then
      (26, ["matches cuisine: " ++ String.intercalate ", " (matchedCuisine.take 2)])
    else if !cuisineIntent.isEmpty then (-40, [])
    else (0, [])
  let softTags := tags.filter (fun t =>
    !HARD_DIETARY.contains t && !cuisineIntent.contains t)
  let matchedSoft := softTags.filter (fun t => containsStr hay t)
  let (s2, r2) : Int × List String :=
    if !matchedSoft.isEmpty then
      ((matchedSoft.length : Int) * 6,
       ["matches vibe: " ++ String.intercalate ", " (matchedSoft.take 2)])
    else (0, [])
  let nhood := normalize (c.neighborhood.getD "")
  let (s3, r3) : Int × List String :=
    if nhood ≠ "" && profileNeighborhoods.any (fun n =>
        containsStr nhood n || containsStr n nhood) then
      (3, ["in your preferred area"])
    else (0, [])
  let minP := (criteria.minPrice.orElse (fun _ => profileMin)).getD 1
  let maxP := (criteria.maxPrice.orElse (fun _ => profileMax)).getD 4
  let (s4, r4) : Int × List String :=
    match c.priceLevel with
    | none => (0, [])
    | some p => if minP ≤ p ∧ p ≤ maxP then (4, ["within budget"]) else (-4, [])
  let (s5, r5) : Int × List String :=
    match c.bookingUrl with
    | some _ => (1, ["bookable link available"])
    | none => (0, [])
  (s1 + s2 + s3 + s4 + s5, r1 ++ r2 ++ r3 ++ r4 ++ r5)

/-- Round a rational to two decimal places, as Number(x.toFixed(2)) does
for the magnitudes arising here. -/
def round2 (q : ℚ) : ℚ := ((q * 100 + 1 / 2).floor : ℚ) / 100

def confidenceScore (candidates : List Candidate) (criteria : PlanCriteria) : ℚ :=
  if candidates.isEmpty then 0
  else
    let tags := unique (criteria.vibeTags.getD [])
    let cuisineIntent := cuisineIntentFromTags tags
    let hardTags := tags.filter (fun t =>
      HARD_DIETARY.contains t || CUISINE_HINTS.contains t || cuisineIntent.contains t)
    if hardTags.isEmpty then
      if 3 ≤ candidates.length then 3 / 4 else 9 / 20
    else
      let matchedCount := (candidates.filter (fun c =>
        let hay := searchableText c
        textMatchesCuisine hay cuisineIntent &&
          (tags.filter (fun t => HARD_DIETARY.contains t)).all
            (fun t => containsStr hay t))).length
      let coverage : ℚ := min 1 ((matchedCount : ℚ) / (max 3 hardTags.length : ℚ))
      let depth : ℚ := min 1 ((candidates.length : ℚ) / 8)
      round2 (65 / 100 * coverage + 35 / 100 * depth)

def relaxCuisineTags (tags : List String) : List String :=
  let normalized := unique tags
  let cuisineIntent := cuisineIntentFromTags normalized
  if cuisineIntent.length ≤ 1 then normalized
  else
    let primary := cuisineIntent.headD ""
    normalized.filter (fun t =>
      if HARD_DIETARY.contains t then true
      else
        let tagCuisine := cuisineIntentFromTags [t]
        if tagCuisine.isEmpty then true
        else tagCuisine.contains primary)

/-! ## Recommend route request handling (POST, latest variant) -/

/-- Criteria normalization at the top of the recommend POST handler:
price defaults (1 and 4), tag normalization, then swap-on-violation. -/
def normalizeRecommendCriteria (criteria : PlanCriteria) : PlanCriteria :=
  let n : PlanCriteria :=
    { criteria with
      minPrice := some (criteria.minPrice.getD 1)
      maxPrice := some (criteria.maxPrice.getD 4)
      vibeTags := some (unique (criteria.vibeTags.getD [])) }
  match n.minPrice, n.maxPrice with
  | some a, some b =>
    if b < a then { n with minPrice := some b, maxPrice := some a } else n
  | _, _ => n

/-- Outcome of the hard-constraint filtering stage of the POST handler. -/
structure FilterOutcome where
  filtered : List Candidate
  constraintRelaxed : Bool
  criteria : PlanCriteria
deriving DecidableEq, Repr

/-- The strict filter plus the single relaxation retry of the POST handler:
when strict filtering is empty and criteria carry tags, filter once more
with relaxCuisineTags, adopting the relaxed tags only when that second
pass is nonempty. -/
def filterStage (dbCandidates : List Candidate)
    (normalizedCriteria : PlanCriteria) : FilterOutcome :=
  let filtered := dbCandidates.filter
    (fun c => matchesHardConstraints c normalizedCriteria)
  if filtered.isEmpty && !(normalizedCriteria.vibeTags.getD []).isEmpty then
    let relaxedTags := relaxCuisineTags (normalizedCriteria.vibeTags.getD [])
    let relaxedCriteria := { normalizedCriteria with vibeTags := some relaxedTags }
    let filtered2 := dbCandidates.filter
      (fun c => matchesHardConstraints c relaxedCriteria)
    if !filtered2.isEmpty then
      { filtered := filtered2, constraintRelaxed := true, criteria := relaxedCriteria }
    else
      { filtered := filtered2, constraintRelaxed := false, criteria := normalizedCriteria }
  else
    { filtered := filtered, constraintRelaxed := false, criteria := normalizedCriteria }

/-- A candidate together with its score and reasons, as built before the
sort in the POST handler. -/
structure Scored where
  candidate : Candidate
  score : Int
  reasons : List String
deriving DecidableEq, Repr

/-- Stable insertion for descending order: an element goes after all
strictly greater scores and before equal ones, which is exactly the
ordering a stable sort with comparator (b.score - a.score) produces. -/
def insertScored (x : Scored) : List Scored → List Scored
  | [] => [x]
  | y :: ys => if x.score < y.score then y :: insertScored x ys else x :: y :: ys

/-- JS Array.prototype.sort with comparator (a, b) => b.score - a.score:
a stable sort by score descending. -/
def sortByScoreDesc : List Scored → List Scored
  | [] => []
  | x :: xs => insertScored x (sortByScoreDesc xs)

/-- The scoring and ranking stage of the POST handler: map each candidate
to its score, then sort by score descending (ties keep input order,
because the JS sort is stable and the comparator uses only the score). -/
def rankCandidates (cands : List Candidate) (criteria : PlanCriteria)
    (profileNeighborhoods : List String)
    (profileMin profileMax : Option Int) : List Scored :=
  sortByScoreDesc (cands.map (fun c =>
    let r := scoreCandidate c criteria profileNeighborhoods profileMin profileMax
    { candidate := c, score := r.1, reasons := r.2 }))

/-! ## LLM reranker re-validation (rerankWithLlm, latest variant) -/

/-- One row of the parsed model reply (fields absent or of the wrong JSON
type are modelled as none). -/
structure RawPick where
  id : Option String := none
  reason : Option String := none
  tradeoff : Option String := none
deriving DecidableEq, Repr

/-- Map lookup over candidates by id (a JS Map built from a list keeps the
last entry for a duplicated key). -/
def lookupCandidate (candidates : List Candidate) (id : String) : Option Candidate :=
  candidates.reverse.find? (fun c => c.id == id)

def acceptLoop (candidates : List Candidate) (cuisineIntent dietaryTags : List String) :
    List RawPick → List Recommendation → List Recommendation
  | [], acc => acc
  | row :: rest, acc =>
    let id := row.id.getD ""
    if id = "" then acceptLoop candidates cuisineIntent dietaryTags rest acc
    else
      match lookupCandidate candidates id with
      | none => acceptLoop candidates cuisineIntent dietaryTags rest acc
      | some c =>
        let hay := searchableText c
        if !textMatchesCuisine hay cuisineIntent then
          acceptLoop candidates cuisineIntent dietaryTags rest acc
        else if !dietaryTags.all (fun t => containsStr hay t) then
          acceptLoop candidates cuisineIntent dietaryTags rest acc
        else
          let pick : Recommendation :=
            { id := c.id, name := c.name, neighborhood := c.neighborhood,
              priceLevel := c.priceLevel, bookingUrl := c.bookingUrl,
              source := c.source,
              reason := row.reason.getD "Strong fit for your criteria.",
              tradeoff := row.tradeoff.getD "May require flexibility on timing." }
          let acc2 := acc ++ [pick]
          if 3 ≤ acc2.length then acc2
          else acceptLoop candidates cuisineIntent dietaryTags rest acc2

/-- The pure validation core of rerankWithLlm: given the parsed picks of a
model reply, re-validate each against the candidate pool, the cuisine
intent and the dietary tags, keeping at most 3. -/
def acceptLlmPicks (criteria : PlanCriteria) (candidates : List Candidate)
    (picksRaw : List RawPick) : List Recommendation :=
  let cuisineIntent := cuisineIntentFromTags (criteria.vibeTags.getD [])
  let dietaryTags := (unique (criteria.vibeTags.getD [])).filter
    (fun t => HARD_DIETARY.contains t)
  acceptLoop candidates cuisineIntent dietaryTags picksRaw []

/-! ## Specification-side predicates for the hard-constraint filter

These restate the constraints in the words of the specification, to be
compared with the translated source functions. -/

/-- Budget constraint as the specification words it: an unset candidate
price level always passes, a set one must lie within the set bounds. -/
def priceWithinBudget (c : Candidate) (criteria : PlanCriteria) : Bool :=
  match c.priceLevel with
  | none => true
  | some p =>
    (match criteria.minPrice with | some m => m ≤ p | none => true) &&
    (match criteria.maxPrice with | some m => p ≤ m | none => true)

/-- Cuisine constraint as the specification words it: when the criteria
tags imply cuisine intent, the searchable text must match at least one
keyword of at least one implied cuisine. -/
def satisfiesCuisineIntent (c : Candidate) (criteria : PlanCriteria) : Bool :=
  let intent := cuisineIntentFromTags (unique (criteria.vibeTags.getD []))
  intent.isEmpty || intent.any (fun cuisine =>
    let keywords : List String :=
      match CUISINE_SYNONYMS.find? (fun p => p.1 == cuisine) with
      | some p => p.2
      | none => [cuisine]
    keywords.any (fun k => containsStr (searchableText c) (normalize k)))

/-- Dietary constraint as the specification words it: every dietary tag of
the criteria occurs as a substring of the searchable text. -/
def satisfiesDietaryTags (c : Candidate) (criteria : PlanCriteria) : Bool :=
  ((unique (criteria.vibeTags.getD [])).filter (fun t => HARD_DIETARY.contains t)).all
    (fun t => containsStr (searchableText c) t)

/-- The scenario candidate of the budget-dominates test: price level 3,
tags containing vegetarian. -/
def vegScenarioCandidate : Candidate :=
  { id := "r1", name := "Green Table", neighborhood := none,
    priceLevel := some 3, bookingUrl := none, notes := none,
    source := .db, tagsText := "vegetarian" }

/-- The scenario criteria of the budget-dominates test. -/
def vegScenarioCriteria : PlanCriteria :=
  { minPrice := some 1, maxPrice := some 2, vibeTags := some ["vegetarian"] }

theorem satisfiesCuisineIntent_eq (c : Candidate) (criteria : PlanCriteria) :
    satisfiesCuisineIntent c criteria =
      textMatchesCuisine (searchableText c)
        (cuisineIntentFromTags (unique (criteria.vibeTags.getD []))) := by
  unfold satisfiesCuisineIntent textMatchesCuisine
  cases h : (cuisineIntentFromTags (unique (criteria.vibeTags.getD []))).isEmpty <;>
    simp [h]

/-- C3: the strict constraint filter accepts a candidate if and only if the
budget, cuisine-intent and dietary constraints all hold as a conjunction;
in particular the scenario candidate with price level 3 under criteria
with minPrice 1, maxPrice 2 and a vegetarian tag is excluded even though
its tags contain vegetarian. -/
theorem C3_hard_constraints_are_conjunction :
    (∀ (c : Candidate) (criteria : PlanCriteria),
      matchesHardConstraints c criteria =
        (priceWithinBudget c criteria && satisfiesCuisineIntent c criteria &&
          satisfiesDietaryTags c criteria)) ∧
    matchesHardConstraints vegScenarioCandidate vegScenarioCriteria = false := by
  constructor
  · intro c criteria
    rw [satisfiesCuisineIntent_eq]
    unfold matchesHardConstraints priceWithinBudget satisfiesDietaryTags
    cases hp : c.priceLevel with
    | none =>
      simp only
      cases hd : ((unique (criteria.vibeTags.getD [])).filter
          (fun t => HARD_DIETARY.contains t)) with
      | nil =>
        cases htc : textMatchesCuisine (searchableText c)
            (cuisineIntentFromTags (unique (criteria.vibeTags.getD []))) <;>
          simp [htc]
      | cons a l =>
        cases htc : textMatchesCuisine (searchableText c)
            (cuisineIntentFromTags (unique (criteria.vibeTags.getD []))) <;>
          simp [htc]
    | some p =>
      cases hm : criteria.minPrice <;> cases hM : criteria.maxPrice <;>
        cases htc : textMatchesCuisine (searchableText c)
          (cuisineIntentFromTags (unique (criteria.vibeTags.getD []))) <;>
        cases hd : ((unique (criteria.vibeTags.getD [])).filter
          (fun t => HARD_DIETARY.contains t)) <;>
        simp only [htc, hd] <;> split_ifs <;> simp_all <;> omega
  · decide

/-! ## Confidence estimation: specification-side formula -/

/-- Hard intent tags of the criteria: tags that are dietary, listed cuisine
hints, or names of inferred cuisines. -/
def hardIntentTags (criteria : PlanCriteria) : List String :=
  let tags := unique (criteria.vibeTags.getD [])
  let cuisineIntent := cuisineIntentFromTags tags
  tags.filter (fun t =>
    HARD_DIETARY.contains t || CUISINE_HINTS.contains t || cuisineIntent.contains t)

/-- Number of candidates whose searchable text satisfies the cuisine intent
and every dietary tag of the criteria. -/
def matchedIntentCount (candidates : List Candidate) (criteria : PlanCriteria) : Nat :=
  (candidates.filter (fun c =>
    satisfiesCuisineIntent c criteria && satisfiesDietaryTags c criteria)).length

/-- The confidence formula in the words of the specification, amended at
one point: on an empty candidate pool the code returns 0 (the claim said
0.45 for every pool of fewer than 3 candidates without hard intent tags). -/
def confidenceSpecAmended (candidates : List Candidate) (criteria : PlanCriteria) : ℚ :=
  if candidates.isEmpty then 0
  else if (hardIntentTags criteria).isEmpty then
    if 3 ≤ candidates.length then 3 / 4 else 9 / 20
  else
    round2 (65 / 100 *
        min 1 ((matchedIntentCount candidates criteria : ℚ) /
          (max 3 (hardIntentTags criteria).length : ℚ)) +
      35 / 100 * min 1 ((candidates.length : ℚ) / 8))

/-- C4 counterexample: on an empty pool with no hard intent tags the
confidence estimator returns 0, not the 0.45 the claim assigns to every
pool of fewer than 3 candidates. -/
theorem C4_confidence_empty_pool_counterexample :
    confidenceScore [] {} = 0 ∧ (0 : ℚ) ≠ 9 / 20 := by
  constructor
  · decide
  · norm_num

/-- C4 (amended): the confidence estimator equals the specification
formula, with the empty pool mapped to 0; for a nonempty pool it returns
0.75 or 0.45 by pool depth when no hard intent tag is present, and the
rounded 65/35 coverage-depth blend otherwise. -/
theorem C4_confidence_formula_amended (cands : List Candidate) (crit : PlanCriteria) :
    confidenceScore cands crit = confidenceSpecAmended cands crit := by
  unfold confidenceScore confidenceSpecAmended hardIntentTags matchedIntentCount
  simp only [satisfiesCuisineIntent_eq, satisfiesDietaryTags]

/-! ## Relaxation retry of the filter stage -/

/-- The relaxed criteria built in the POST handler when strict filtering
comes back empty: same criteria with relaxCuisineTags applied. -/
def relaxedCriteria (crit : PlanCriteria) : PlanCriteria :=
  { crit with vibeTags := some (relaxCuisineTags (crit.vibeTags.getD [])) }

/-- C2 counterexample: the relaxed tag list is not restricted to the
dietary tags and the first inferred cuisine. For the tags sushi, italian,
romantic the first inferred cuisine is sushi, yet the relaxed list keeps
romantic, which is neither a dietary tag nor a tag inferring any
cuisine. -/
theorem C2_relaxed_tags_counterexample :
    relaxCuisineTags ["sushi", "italian", "romantic"] = ["sushi", "romantic"] ∧
    (cuisineIntentFromTags ["sushi", "italian", "romantic"]).headD "" = "sushi" ∧
    "romantic" ∈ relaxCuisineTags ["sushi", "italian", "romantic"] ∧
    HARD_DIETARY.contains "romantic" = false ∧
    cuisineIntentFromTags ["romantic"] = [] := by
  refine ⟨by decide, by decide, by decide, by decide, by decide⟩

/-- C2 (amended): when the strict filter yields zero candidates and the
criteria contain at least one tag, filtering is retried exactly once with
the relaxed tags (which keep the dietary tags, every tag that infers no
cuisine, and only the cuisine tags matching the first inferred cuisine);
the relaxation flag records whether the relaxed pass produced candidates,
and when the relaxed pass is also empty the filtered set stays empty
instead of falling back to the unfiltered catalog. When the strict pass
is nonempty or no tags are present, no relaxation happens. -/
theorem C2_relaxation_retry_amended (dbs : List Candidate) (crit : PlanCriteria) :
    ((dbs.filter (fun c => matchesHardConstraints c crit) = [] ∧
        (crit.vibeTags.getD []) ≠ []) →
      ((filterStage dbs crit).filtered =
          dbs.filter (fun c => matchesHardConstraints c (relaxedCriteria crit)) ∧
        (filterStage dbs crit).constraintRelaxed =
          !(dbs.filter (fun c =>
            matchesHardConstraints c (relaxedCriteria crit))).isEmpty)) ∧
    ((dbs.filter (fun c => matchesHardConstraints c crit) ≠ [] ∨
        (crit.vibeTags.getD []) = []) →
      ((filterStage dbs crit).filtered =
          dbs.filter (fun c => matchesHardConstraints c crit) ∧
        (filterStage dbs crit).constraintRelaxed = false)) := by
  unfold filterStage relaxedCriteria
  constructor
  · rintro ⟨h1, h2⟩
    simp only [h1, List.isEmpty_nil, Bool.true_and]
    have h2b : (crit.vibeTags.getD []).isEmpty = false := by
      cases h : crit.vibeTags.getD [] with
      | nil => exact absurd h h2
      | cons a l => simp [h]
    simp only [h2b, Bool.not_false, if_true]
    cases hrel : dbs.filter (fun c => matchesHardConstraints c
        { crit with vibeTags := some (relaxCuisineTags (crit.vibeTags.getD [])) }) with
    | nil => simp [hrel]
    | cons a l => simp [hrel]
  · intro h
    rcases h with h | h
    · have hne : (dbs.filter (fun c => matchesHardConstraints c crit)).isEmpty = false := by
        cases hh : dbs.filter (fun c => matchesHardConstraints c crit) with
        | nil => exact absurd hh h
        | cons a l => simp [hh]
      simp [hne]
    · simp [h]

/-- C2 witness: with an empty catalog and a sushi tag the strict pass is
empty, the retry also comes back empty, and the outcome records no
relaxation while staying empty. -/
theorem C2_relaxation_retry_witness :
    (filterStage [] { vibeTags := some ["sushi"] }).filtered = [] ∧
    (filterStage [] { vibeTags := some ["sushi"] }).constraintRelaxed = false := by
  have h := (C2_relaxation_retry_amended [] { vibeTags := some ["sushi"] }).1
    ⟨by decide, by decide⟩
  exact ⟨by rw [h.1]; decide, by rw [h.2]; decide⟩

/-! ## Stability of the score ranking -/

theorem insertScored_perm (x : Scored) (l : List Scored) :
    List.Perm (insertScored x l) (x :: l) := by
  induction l with
  | nil => simp [insertScored]
  | cons y ys ih =>
    unfold insertScored
    by_cases hxy : x.score < y.score
    · simpa [hxy] using ((ih.cons y).trans (List.Perm.swap x y ys))
    · simp [hxy]

theorem insertScored_pairwise (x : Scored) (l : List Scored)
    (h : l.Pairwise (fun a b => b.score ≤ a.score)) :
    (insertScored x l).Pairwise (fun a b => b.score ≤ a.score) := by
  induction l with
  | nil => simp [insertScored]
  | cons y ys ih =>
    rcases List.pairwise_cons.mp h with ⟨hy, hys⟩
    unfold insertScored
    by_cases hxy : x.score < y.score
    · rw [if_pos hxy]
      refine List.pairwise_cons.mpr ⟨?_, ih hys⟩
      intro z hz
      rcases List.mem_cons.mp ((insertScored_perm x ys).mem_iff.mp hz) with rfl | hz2
      · exact le_of_lt hxy
      · exact hy z hz2
    · rw [if_neg hxy]
      refine List.pairwise_cons.mpr ⟨?_, h⟩
      intro z hz
      rcases List.mem_cons.mp hz with rfl | hz2
      · omega
      · exact le_trans (hy z hz2) (by omega)

theorem insertScored_filter (x : Scored) (l : List Scored) (k : Int) :
    (insertScored x l).filter (fun s => s.score == k) =
      if x.score == k then x :: l.filter (fun s => s.score == k)
      else l.filter (fun s => s.score == k) := by
  induction l with
  | nil =>
    by_cases hxk : x.score = k <;> simp [insertScored, List.filter_cons, hxk]
  | cons y ys ih =>
    unfold insertScored
    by_cases hxy : x.score < y.score
    · rw [if_pos hxy]
      simp only [List.filter_cons]
      by_cases hyk : y.score = k
      · have hxk : ¬ x.score = k := by omega
        simp [hyk, hxk, ih]
      · by_cases hxk : x.score = k <;> simp [hyk, hxk, ih]
    · rw [if_neg hxy]
      simp [List.filter_cons]

theorem sortByScoreDesc_sorted (l : List Scored) :
    (sortByScoreDesc l).Pairwise (fun a b => b.score ≤ a.score) := by
  induction l with
  | nil => simp [sortByScoreDesc]
  | cons x xs ih => exact insertScored_pairwise x _ ih

theorem sortByScoreDesc_filter (l : List Scored) (k : Int) :
    (sortByScoreDesc l).filter (fun s => s.score == k) =
      l.filter (fun s => s.score == k) := by
  induction l with
  | nil => rfl
  | cons x xs ih =>
    unfold sortByScoreDesc
    rw [insertScored_filter]
    by_cases hxk : x.score = k <;> simp [hxk, List.filter_cons, ih]

theorem sortByScoreDesc_perm (l : List Scored) :
    List.Perm (sortByScoreDesc l) l := by
  induction l with
  | nil => rfl
  | cons x xs ih => exact (insertScored_perm x _).trans (ih.cons x)

/-- The scored list as built in the POST handler before sorting. -/
def scoredOf (cands : List Candidate) (criteria : PlanCriteria)
    (profileNeighborhoods : List String)
    (profileMin profileMax : Option Int) : List Scored :=
  cands.map (fun c =>
    let r := scoreCandidate c criteria profileNeighborhoods profileMin profileMax
    { candidate := c, score := r.1, reasons := r.2 })

/-- Lexicographic comparison of character lists by code point. -/
def charListLe : List Char → List Char → Bool
  | [], _ => true
  | _ :: _, [] => false
  | c :: cs, d :: ds =>
    if c.toNat < d.toNat then true
    else if d.toNat < c.toNat then false
    else charListLe cs ds

/-- Case-insensitive lexicographic comparison of names, as the claim
words the tie-break it expects. Modelled from the spec: the source has no
such comparator. -/
def caseInsensitiveLe (a b : String) : Bool :=
  charListLe (a.toList.map lowerChar) (b.toList.map lowerChar)

/-- First candidate of the tie-break counterexample. -/
def tieCandidateZed : Candidate := { id := "z1", name := "Zed" }

/-- Second candidate of the tie-break counterexample. -/
def tieCandidateAlpha : Candidate := { id := "a1", name := "Alpha" }

/-- C5 counterexample: two candidates with equal scores come out of the
ranking in their input order Zed, Alpha, which is not case-insensitive
lexicographic name order. -/
theorem C5_tie_break_counterexample :
    ((rankCandidates [tieCandidateZed, tieCandidateAlpha] {} [] none none).map
      (fun s => s.score) = [0, 0]) ∧
    ((rankCandidates [tieCandidateZed, tieCandidateAlpha] {} [] none none).map
      (fun s => s.candidate.name) = ["Zed", "Alpha"]) ∧
    caseInsensitiveLe "Zed" "Alpha" = false := by
  refine ⟨by decide, by decide, by decide⟩

/-- C5 (amended): the ranking sorts by score descending and is stable:
candidates with equal scores appear in their input order, never reordered
by name, so ranking an unchanged candidate set against unchanged criteria
and profile twice yields an identical ordering including tie-breaks. -/
theorem C5_ranking_stable_amended (cands : List Candidate) (criteria : PlanCriteria)
    (profileNeighborhoods : List String) (profileMin profileMax : Option Int) :
    (rankCandidates cands criteria profileNeighborhoods profileMin profileMax).Pairwise
        (fun a b => b.score ≤ a.score) ∧
    (∀ k : Int,
      (rankCandidates cands criteria profileNeighborhoods profileMin profileMax).filter
          (fun s => s.score == k) =
        (scoredOf cands criteria profileNeighborhoods profileMin profileMax).filter
          (fun s => s.score == k)) ∧
    List.Perm (rankCandidates cands criteria profileNeighborhoods profileMin profileMax)
      (scoredOf cands criteria profileNeighborhoods profileMin profileMax) := by
  have hdef : rankCandidates cands criteria profileNeighborhoods profileMin profileMax =
      sortByScoreDesc (scoredOf cands criteria profileNeighborhoods profileMin profileMax) := rfl
  rw [hdef]
  exact ⟨sortByScoreDesc_sorted _, fun k => sortByScoreDesc_filter _ k,
    sortByScoreDesc_perm _⟩

/-! ## Reranker re-validation soundness -/

theorem lookupCandidate_mem (candidates : List Candidate) (id : String) (c : Candidate)
    (h : lookupCandidate candidates id = some c) : c ∈ candidates ∧ c.id = id := by
  unfold lookupCandidate at h
  constructor
  · exact List.mem_reverse.mp (List.mem_of_find?_eq_some h)
  · have := List.find?_some h
    simpa using this

/-- A recommendation that passes the independent re-validation of the
reranker: it names a candidate of the pool whose searchable text matches
the cuisine intent and contains every dietary tag. -/
def validPick (candidates : List Candidate) (cuisineIntent dietaryTags : List String)
    (r : Recommendation) : Prop :=
  ∃ c, c ∈ candidates ∧ r.id = c.id ∧
    textMatchesCuisine (searchableText c) cuisineIntent = true ∧
    dietaryTags.all (fun t => containsStr (searchableText c) t) = true

theorem acceptLoop_spec (candidates : List Candidate)
    (cuisineIntent dietaryTags : List String) :
    ∀ (picks : List RawPick) (acc : List Recommendation),
      acc.length < 3 →
      (∀ r ∈ acc, validPick candidates cuisineIntent dietaryTags r) →
      (acceptLoop candidates cuisineIntent dietaryTags picks acc).length ≤ 3 ∧
      ∀ r ∈ acceptLoop candidates cuisineIntent dietaryTags picks acc,
        validPick candidates cuisineIntent dietaryTags r := by
  intro picks
  induction picks with
  | nil =>
    intro acc hlen hacc
    exact ⟨by simpa [acceptLoop] using le_of_lt hlen,
      by simpa [acceptLoop] using hacc⟩
  | cons row rest ih =>
    intro acc hlen hacc
    unfold acceptLoop
    by_cases hid : row.id.getD "" = ""
    · simp only [hid, if_pos rfl]
      exact ih acc hlen hacc
    · rw [if_neg hid]
      cases hc : lookupCandidate candidates (row.id.getD "") with
      | none => exact ih acc hlen hacc
      | some c =>
        rcases lookupCandidate_mem _ _ _ hc with ⟨hcmem, hcid⟩
        by_cases htm : textMatchesCuisine (searchableText c) cuisineIntent = true
        · by_cases hdt : dietaryTags.all (fun t => containsStr (searchableText c) t) = true
          · simp only [htm, hdt, Bool.not_true, Bool.false_eq_true, if_false]
            set pick : Recommendation :=
              { id := c.id, name := c.name, neighborhood := c.neighborhood,
                priceLevel := c.priceLevel, bookingUrl := c.bookingUrl,
                source := c.source,
                reason := row.reason.getD "Strong fit for your criteria.",
                tradeoff := row.tradeoff.getD "May require flexibility on timing." }
              with hpick
            have haccp : ∀ r ∈ acc ++ [pick],
                validPick candidates cuisineIntent dietaryTags r := by
              intro r hr
              rcases List.mem_append.mp hr with hr | hr
              · exact hacc r hr
              · rcases List.mem_singleton.mp hr with rfl
                exact ⟨c, hcmem, rfl, htm, hdt⟩
            by_cases h3 : 3 ≤ (acc ++ [pick]).length
            · rw [if_pos h3]
              refine ⟨?_, haccp⟩
              simp only [List.length_append, List.length_singleton]
              omega
            · rw [if_neg h3]
              refine ih (acc ++ [pick]) ?_ haccp
              simp only [List.length_append, List.length_singleton] at h3 ⊢
              omega
          · have hdt2 : dietaryTags.all (fun t => containsStr (searchableText c) t) = false := by
              cases hh : dietaryTags.all (fun t => containsStr (searchableText c) t)
              · rfl
              · exact absurd hh hdt
            simp only [htm, hdt2]
            simpa using ih acc hlen hacc
        · have htm2 : textMatchesCuisine (searchableText c) cuisineIntent = false := by
            cases hh : textMatchesCuisine (searchableText c) cuisineIntent
            · rfl
            · exact absurd hh htm
          simp only [htm2]
          simpa using ih acc hlen hacc

/-- C6: every recommendation accepted from a model reply names a candidate
of the submitted pool whose searchable text matches the cuisine intent of
the criteria and contains every dietary tag; invalid picks are dropped,
and at most 3 picks are returned. -/
theorem C6_rerank_revalidation (criteria : PlanCriteria) (candidates : List Candidate)
    (picksRaw : List RawPick) :
    (acceptLlmPicks criteria candidates picksRaw).length ≤ 3 ∧
    ∀ r ∈ acceptLlmPicks criteria candidates picksRaw,
      ∃ c, c ∈ candidates ∧ r.id = c.id ∧
        textMatchesCuisine (searchableText c)
          (cuisineIntentFromTags (criteria.vibeTags.getD [])) = true ∧
        ∀ t ∈ (unique (criteria.vibeTags.getD [])).filter
            (fun t => HARD_DIETARY.contains t),
          containsStr (searchableText c) t = true := by
  have hdef : acceptLlmPicks criteria candidates picksRaw =
      acceptLoop candidates (cuisineIntentFromTags (criteria.vibeTags.getD []))
        ((unique (criteria.vibeTags.getD [])).filter
          (fun t => HARD_DIETARY.contains t)) picksRaw [] := rfl
  rw [hdef]
  have h := acceptLoop_spec candidates
    (cuisineIntentFromTags (criteria.vibeTags.getD []))
    ((unique (criteria.vibeTags.getD [])).filter (fun t => HARD_DIETARY.contains t))
    picksRaw [] (by simp) (by simp)
  refine ⟨h.1, fun r hr => ?_⟩
  rcases h.2 r hr with ⟨c, hmem, hid, htm, hdt⟩
  exact ⟨c, hmem, hid, htm, fun t ht => by simpa using (List.all_eq_true.mp hdt) t ht⟩

/-! ## Trending extraction quality gate (health route, latest variant) -/

/-- A trending restaurant row as produced by extraction and enrichment. -/
structure TrendingRow where
  name : String
  overview : String := ""
  source_article_ids : List String := []
  neighborhood : Option String := none
  price_level : Option Int := none
  cuisine_vibes : List String := []
  google_rating : Option ℚ := none
deriving DecidableEq, Repr

def TRENDING_MIN_VALID_COUNT : Nat := 5

def trendingMinEvidenceRatio : ℚ := 7 / 10

/-- The blocklist of newsletter, account and subscription phrases used by
looksLikeNoise. -/
def noiseBlockedTerms : List String :=
  ["subscribe", "newsletter", "newsletters", "sign up", "readers", "privacy",
   "policy", "terms", "account", "log in", "login", "register", "everywhere",
   "everything"]

def looksLikeNoise (name : String) : Bool :=
  let n := normalizeText name
  noiseBlockedTerms.any (fun term => containsStr n term)

def hasArticleEvidence (name articleText : String) : Bool :=
  let needle := normalizeText name
  if needle = "" then false
  else
    let hay := normalizeText articleText
    if hay = "" then false else containsStr hay needle

/-- Seed eligibility of an enriched row (JS truthiness: an empty
neighborhood string does not count). -/
def isSeedEligible (row : TrendingRow) : Bool :=
  (match row.neighborhood with | some s => s != "" | none => false) ||
  (match row.price_level with | some p => decide (1 ≤ p) && decide (p ≤ 4) | none => false) ||
  !row.cuisine_vibes.isEmpty ||
  (match row.google_rating with | some r => decide (0 ≤ r) && decide (r ≤ 5) | none => false)

/-- Which quality gate failed, carrying the measured statistic the source
formats into the reason string. -/
inductive GateReason where
  | tooFewRows (validCount : Nat)
  | lowEvidence (evidenceRatio : ℚ)
deriving DecidableEq, Repr

structure QualityResult where
  passed : Bool
  accepted : List TrendingRow
  validCount : Nat
  evidenceCount : Nat
  evidenceRatio : ℚ
  noiseFiltered : Nat
  reason : Option GateReason := none
deriving DecidableEq, Repr

/-- evaluateTrendingQuality: noise-filter the rows, count the rows whose
name is found (normalized) in the text of their claimed source articles,
and gate on a minimum plausible-row count and a minimum evidence ratio.
The article text map is modelled as a total function (a missing id maps
to the empty string, as the source getter defaults). -/
def evaluateTrendingQuality (restaurants : List TrendingRow)
    (articleTextById : String → String) : QualityResult :=
  let cleaned := restaurants.filter (fun r => !looksLikeNoise r.name)
  let accepted := cleaned.filter (fun r =>
    hasArticleEvidence r.name
      (String.intercalate " " (r.source_article_ids.map articleTextById)))
  let validCount := cleaned.length
  let evidenceCount := accepted.length
  let evidenceRatio : ℚ :=
    if 0 < validCount then (evidenceCount : ℚ) / (validCount : ℚ) else 0
  let noiseFiltered := restaurants.length - cleaned.length
  if validCount < TRENDING_MIN_VALID_COUNT then
    { passed := false, accepted := [], validCount := validCount,
      evidenceCount := evidenceCount, evidenceRatio := evidenceRatio,
      noiseFiltered := noiseFiltered,
      reason := some (.tooFewRows validCount) }
  else if evidenceRatio < trendingMinEvidenceRatio then
    { passed := false, accepted := [], validCount := validCount,
      evidenceCount := evidenceCount, evidenceRatio := evidenceRatio,
      noiseFiltered := noiseFiltered,
      reason := some (.lowEvidence evidenceRatio) }
  else
    { passed := true, accepted := accepted, validCount := validCount,
      evidenceCount := evidenceCount, evidenceRatio := evidenceRatio,
      noiseFiltered := noiseFiltered, reason := none }

/-- The persistent state the trending phase can touch: the
trending-restaurant table and the main restaurant catalog. -/
structure BuzzStore where
  trending : List TrendingRow
  catalog : List TrendingRow
deriving DecidableEq, Repr

/-- Upsert-by-normalized-name into the catalog: replace the matching row,
otherwise append. -/
def upsertRows (catalog : List TrendingRow) : List TrendingRow → List TrendingRow
  | [] => catalog
  | row :: rest =>
    let key := normalizeRestaurantName row.name
    let next :=
      if catalog.any (fun r => normalizeRestaurantName r.name == key) then
        catalog.map (fun r => if normalizeRestaurantName r.name == key then row else r)
      else catalog ++ [row]
    upsertRows next rest

structure TrendingReport where
  inserted : Nat
  seeded : Nat
  quality : Option QualityResult
deriving DecidableEq, Repr

/-- The trending phase of the weekly curation run for a given extraction
output: evaluate the quality gate; on failure return without touching the
store, reporting the gate outcome and its statistics; on success replace
the trending table with the accepted rows and seed the eligible rows into
the catalog. Successful persistence calls are modelled as pure state
updates. -/
def runTrendingPhase (extracted : List TrendingRow)
    (articleTextById : String → String) (store : BuzzStore) :
    BuzzStore × TrendingReport :=
  if extracted.isEmpty then
    (store, { inserted := 0, seeded := 0, quality := none })
  else
    let quality := evaluateTrendingQuality extracted articleTextById
    if quality.passed then
      let acceptedRows := quality.accepted
      let cleared : BuzzStore := { store with trending := [] }
      let inserted : BuzzStore := { cleared with trending := acceptedRows }
      let seedableRows := acceptedRows.filter isSeedEligible
      let afterSeed : BuzzStore :=
        if seedableRows.isEmpty then inserted
        else { inserted with catalog := upsertRows inserted.catalog seedableRows }
      (afterSeed,
        { inserted := acceptedRows.length, seeded := seedableRows.length,
          quality := some quality })
    else
      (store, { inserted := 0, seeded := 0, quality := some quality })

theorem evaluateTrendingQuality_validCount (r : List TrendingRow) (t : String → String) :
    (evaluateTrendingQuality r t).validCount =
      (r.filter (fun x => !looksLikeNoise x.name)).length := by
  simp only [evaluateTrendingQuality]
  split_ifs <;> rfl

theorem evaluateTrendingQuality_evidenceCount (r : List TrendingRow) (t : String → String) :
    (evaluateTrendingQuality r t).evidenceCount =
      ((r.filter (fun x => !looksLikeNoise x.name)).filter (fun x =>
        hasArticleEvidence x.name
          (String.intercalate " " (x.source_article_ids.map t)))).length := by
  simp only [evaluateTrendingQuality]
  split_ifs <;> rfl

theorem evaluateTrendingQuality_evidenceRatio (r : List TrendingRow) (t : String → String) :
    (evaluateTrendingQuality r t).evidenceRatio =
      (if 0 < (evaluateTrendingQuality r t).validCount then
        ((evaluateTrendingQuality r t).evidenceCount : ℚ) /
          ((evaluateTrendingQuality r t).validCount : ℚ)
      else 0) := by
  rw [evaluateTrendingQuality_validCount]
  rw [evaluateTrendingQuality_evidenceCount]
  simp only [evaluateTrendingQuality]
  split_ifs <;> rfl

theorem evaluateTrendingQuality_reason (r : List TrendingRow) (t : String → String) :
    (evaluateTrendingQuality r t).reason =
      (if (evaluateTrendingQuality r t).validCount < TRENDING_MIN_VALID_COUNT then
        some (GateReason.tooFewRows (evaluateTrendingQuality r t).validCount)
      else if (evaluateTrendingQuality r t).evidenceRatio < trendingMinEvidenceRatio then
        some (GateReason.lowEvidence (evaluateTrendingQuality r t).evidenceRatio)
      else none) := by
  rw [evaluateTrendingQuality_evidenceRatio]
  rw [evaluateTrendingQuality_validCount]
  rw [evaluateTrendingQuality_evidenceCount]
  simp only [evaluateTrendingQuality]
  split_ifs <;> rfl

/-- The gate decision is a pure condition on the two measured statistics:
the run passes exactly when the plausible-row count reaches the minimum
and the evidence ratio reaches the threshold. -/
theorem evaluateTrendingQuality_passed_iff (r : List TrendingRow) (t : String → String) :
    (evaluateTrendingQuality r t).passed = true ↔
      (TRENDING_MIN_VALID_COUNT ≤ (evaluateTrendingQuality r t).validCount ∧
       trendingMinEvidenceRatio ≤ (evaluateTrendingQuality r t).evidenceRatio) := by
  rw [evaluateTrendingQuality_evidenceRatio]
  rw [evaluateTrendingQuality_validCount]
  rw [evaluateTrendingQuality_evidenceCount]
  simp only [evaluateTrendingQuality, TRENDING_MIN_VALID_COUNT, trendingMinEvidenceRatio]
  split_ifs <;>
    simp only [Bool.false_eq_true, false_iff, true_iff] <;>
    first
    | (rintro ⟨hA, hB⟩
       first | omega | linarith)
    | (refine ⟨by omega, ?_⟩
       linarith)

/-- C1: the trending output is persisted only when both quality gates
hold; on a failing gate the run leaves the trending store and the catalog
untouched and reports the failing gate with the measured plausible count,
evidence count and evidence ratio (the quality field of the report
carries all three statistics). -/
theorem C1_quality_gate_persistence (extracted : List TrendingRow)
    (texts : String → String) (store : BuzzStore) :
    ((evaluateTrendingQuality extracted texts).passed = false → extracted ≠ [] →
      ((runTrendingPhase extracted texts store).1 = store ∧
       (runTrendingPhase extracted texts store).2.quality =
         some (evaluateTrendingQuality extracted texts) ∧
       (evaluateTrendingQuality extracted texts).reason =
         (if (evaluateTrendingQuality extracted texts).validCount <
             TRENDING_MIN_VALID_COUNT then
           some (GateReason.tooFewRows (evaluateTrendingQuality extracted texts).validCount)
         else
           some (GateReason.lowEvidence
             (evaluateTrendingQuality extracted texts).evidenceRatio)))) ∧
    ((runTrendingPhase extracted texts store).1 ≠ store →
      ((evaluateTrendingQuality extracted texts).passed = true ∧
       (runTrendingPhase extracted texts store).1.trending =
         (evaluateTrendingQuality extracted texts).accepted)) := by
  constructor
  · intro hfail hne
    have hemp : extracted.isEmpty = false := by
      cases extracted with
      | nil => exact absurd rfl hne
      | cons a l => rfl
    refine ⟨?_, ?_, ?_⟩
    · unfold runTrendingPhase
      simp [hemp, hfail]
    · unfold runTrendingPhase
      simp [hemp, hfail]
    · rw [evaluateTrendingQuality_reason]
      by_cases hv : (evaluateTrendingQuality extracted texts).validCount <
          TRENDING_MIN_VALID_COUNT
      · rw [if_pos hv, if_pos hv]
      · rw [if_neg hv, if_neg hv]
        have hratio : (evaluateTrendingQuality extracted texts).evidenceRatio <
            trendingMinEvidenceRatio := by
          by_contra hge
          have hp := (evaluateTrendingQuality_passed_iff extracted texts).mpr
            ⟨le_of_not_lt hv, le_of_not_lt hge⟩
          rw [hfail] at hp
          exact Bool.false_ne_true hp
        rw [if_pos hratio]
  · intro hchanged
    by_cases hemp : extracted.isEmpty
    · exfalso
      apply hchanged
      unfold runTrendingPhase
      simp [hemp]
    · have hemp2 : extracted.isEmpty = false := by
        cases h : extracted.isEmpty
        · rfl
        · exact absurd h hemp
      by_cases hpass : (evaluateTrendingQuality extracted texts).passed = true
      · refine ⟨hpass, ?_⟩
        unfold runTrendingPhase
        simp only [hemp2, Bool.false_eq_true, if_false, hpass, if_true]
        split_ifs <;> rfl
      · exfalso
        apply hchanged
        have hpass2 : (evaluateTrendingQuality extracted texts).passed = false := by
          cases h : (evaluateTrendingQuality extracted texts).passed
          · rfl
          · exact absurd h hpass
        unfold runTrendingPhase
        simp [hemp2, hpass2]

/-- The 4-row extraction of the rejected-run scenario. -/
def rejectedRunRows : List TrendingRow :=
  [{ name := "aaa", source_article_ids := ["x"] },
   { name := "bbb", source_article_ids := ["x"] },
   { name := "ccc", source_article_ids := ["x"] },
   { name := "ddd", source_article_ids := ["x"] }]

/-- Article texts of the rejected-run scenario (no evidence needed: the
count gate already fails). -/
def rejectedRunTexts : String → String := fun _ => ""

/-- Previously persisted trending data that must survive a rejected run. -/
def priorStore : BuzzStore :=
  { trending := [{ name := "known good row" }], catalog := [] }

/-- C1 witness: a run with 4 plausible rows is rejected by the count gate
and leaves the previously persisted trending rows untouched, reporting
the gate outcome. -/
theorem C1_quality_gate_persistence_witness :
    (runTrendingPhase rejectedRunRows rejectedRunTexts priorStore).1 = priorStore ∧
    (runTrendingPhase rejectedRunRows rejectedRunTexts priorStore).2.quality =
      some (evaluateTrendingQuality rejectedRunRows rejectedRunTexts) := by
  have hv : (evaluateTrendingQuality rejectedRunRows rejectedRunTexts).validCount = 4 := by
    rw [evaluateTrendingQuality_validCount]
    decide
  have hfail : (evaluateTrendingQuality rejectedRunRows rejectedRunTexts).passed = false := by
    cases hp : (evaluateTrendingQuality rejectedRunRows rejectedRunTexts).passed
    · rfl
    · exfalso
      rcases (evaluateTrendingQuality_passed_iff rejectedRunRows rejectedRunTexts).mp hp
        with ⟨h5, _⟩
      rw [hv] at h5
      norm_num [TRENDING_MIN_VALID_COUNT] at h5
  have h := (C1_quality_gate_persistence rejectedRunRows rejectedRunTexts priorStore).1
    hfail (by decide)
  exact ⟨h.1, h.2.1⟩

/-- C8: the quality-gate decision is monotone in the two measured
statistics: a passing run stays passing when the plausible-row count and
the evidence ratio do not decrease. -/
theorem C8_gate_monotone (r1 : List TrendingRow) (t1 : String → String)
    (r2 : List TrendingRow) (t2 : String → String)
    (hpass : (evaluateTrendingQuality r1 t1).passed = true)
    (hv : (evaluateTrendingQuality r1 t1).validCount ≤
      (evaluateTrendingQuality r2 t2).validCount)
    (hr : (evaluateTrendingQuality r1 t1).evidenceRatio ≤
      (evaluateTrendingQuality r2 t2).evidenceRatio) :
    (evaluateTrendingQuality r2 t2).passed = true := by
  rcases (evaluateTrendingQuality_passed_iff r1 t1).mp hpass with ⟨h5, h7⟩
  exact (evaluateTrendingQuality_passed_iff r2 t2).mpr
    ⟨le_trans h5 hv, le_trans h7 hr⟩

/-- The 5-row extraction used as the monotonicity witness. -/
def gateWitnessRows : List TrendingRow :=
  [{ name := "aaa", source_article_ids := ["x"] },
   { name := "bbb", source_article_ids := ["x"] },
   { name := "ccc", source_article_ids := ["x"] },
   { name := "ddd", source_article_ids := ["x"] },
   { name := "eee", source_article_ids := ["x"] }]

/-- Article texts containing all five names verbatim. -/
def gateWitnessTexts : String → String :=
  fun id => if id == "x" then "aaa bbb ccc ddd eee" else ""

/-- C8 witness: a concrete passing run stays passing under equal (hence
not-decreased) statistics. -/
theorem C8_gate_monotone_witness :
    (evaluateTrendingQuality gateWitnessRows gateWitnessTexts).passed = true := by
  have hv : (evaluateTrendingQuality gateWitnessRows gateWitnessTexts).validCount = 5 := by
    rw [evaluateTrendingQuality_validCount]
    decide
  have he : (evaluateTrendingQuality gateWitnessRows gateWitnessTexts).evidenceCount = 5 := by
    rw [evaluateTrendingQuality_evidenceCount]
    decide
  have hr : (evaluateTrendingQuality gateWitnessRows gateWitnessTexts).evidenceRatio = 1 := by
    rw [evaluateTrendingQuality_evidenceRatio, hv, he]
    norm_num
  have hpass : (evaluateTrendingQuality gateWitnessRows gateWitnessTexts).passed = true := by
    refine (evaluateTrendingQuality_passed_iff _ _).mpr ⟨?_, ?_⟩
    · rw [hv]
      norm_num [TRENDING_MIN_VALID_COUNT]
    · rw [hr]
      norm_num [trendingMinEvidenceRatio]
  exact C8_gate_monotone gateWitnessRows gateWitnessTexts gateWitnessRows gateWitnessTexts
    hpass (le_refl _) (le_refl _)

/-! ## Plan client criteria merging (client variant with price fields) -/

/-- The plan client criteria. Dates are modelled at day granularity, with
the empty-string unset date as none. -/
structure ClientCriteria where
  dateStart : Option Nat := none
  dateEnd : Option Nat := none
  partySize : Option Int := none
  vibeTags : List String := []
  minPrice : Option Int := none
  maxPrice : Option Int := none
deriving DecidableEq, Repr

/-- The criteria patch shape returned by the chat endpoint (absent fields
are none). -/
structure ChatCriteriaPatch where
  dateStart : Option Nat := none
  dateEnd : Option Nat := none
  partySize : Option Int := none
  minPrice : Option Int := none
  maxPrice : Option Int := none
  vibeTagsToAdd : List String := []
deriving DecidableEq, Repr

/-- The partial criteria patch produced by the heuristic message parser
(each field present only when the message set it). -/
structure CriteriaPatch where
  dateStart : Option Nat := none
  dateEnd : Option Nat := none
  partySize : Option Int := none
  vibeTags : Option (List String) := none
  minPrice : Option Int := none
  maxPrice : Option Int := none
deriving DecidableEq, Repr

/-- Application of an LLM chat patch to the current criteria in the plan
client: field-wise null-coalescing, additive tag merge, then
swap-on-violation of the price bounds. -/
def applyChatPatch (criteria : ClientCriteria) (patch : ChatCriteriaPatch) : ClientCriteria :=
  let next : ClientCriteria :=
    { dateStart := patch.dateStart.or criteria.dateStart
      dateEnd := patch.dateEnd.or criteria.dateEnd
      partySize := patch.partySize.or criteria.partySize
      minPrice := patch.minPrice.or criteria.minPrice
      maxPrice := patch.maxPrice.or criteria.maxPrice
      vibeTags := uniquePhrases (criteria.vibeTags ++ patch.vibeTagsToAdd) }
  match next.minPrice, next.maxPrice with
  | some a, some b =>
    if b < a then { next with minPrice := some b, maxPrice := some a } else next
  | _, _ => next

/-- Application of a heuristic-parser patch to the current criteria in the
plan client fallback path: spread semantics for set fields, additive tag
merge, then swap-on-violation of the price bounds. -/
def applyParsedPatch (criteria : ClientCriteria) (parsed : CriteriaPatch) : ClientCriteria :=
  let next : ClientCriteria :=
    { dateStart := parsed.dateStart.or criteria.dateStart
      dateEnd := parsed.dateEnd.or criteria.dateEnd
      partySize := parsed.partySize.or criteria.partySize
      vibeTags := uniquePhrases (criteria.vibeTags ++ parsed.vibeTags.getD [])
      minPrice := parsed.minPrice.or criteria.minPrice
      maxPrice := parsed.maxPrice.or criteria.maxPrice }
  match next.minPrice, next.maxPrice with
  | some a, some b =>
    if b < a then { next with minPrice := some b, maxPrice := some a } else next
  | _, _ => next

/-- C9: after each criteria-modifying operation (the recommend endpoint
input normalization, the LLM chat-patch application, and the chat-parse
merge), the resulting criteria satisfy minPrice less-or-equal maxPrice
whenever both are set: a violating pair is swapped before use. -/
theorem C9_price_swap_invariant :
    (∀ (crit : PlanCriteria) (a b : Int),
      (normalizeRecommendCriteria crit).minPrice = some a →
      (normalizeRecommendCriteria crit).maxPrice = some b → a ≤ b) ∧
    (∀ (criteria : ClientCriteria) (patch : ChatCriteriaPatch) (a b : Int),
      (applyChatPatch criteria patch).minPrice = some a →
      (applyChatPatch criteria patch).maxPrice = some b → a ≤ b) ∧
    (∀ (criteria : ClientCriteria) (parsed : CriteriaPatch) (a b : Int),
      (applyParsedPatch criteria parsed).minPrice = some a →
      (applyParsedPatch criteria parsed).maxPrice = some b → a ≤ b) := by
  refine ⟨?_, ?_, ?_⟩
  · intro crit a b h1 h2
    simp only [normalizeRecommendCriteria] at h1 h2
    split_ifs at h1 h2 with h <;> simp at h1 h2 <;> omega
  · intro criteria patch a b h1 h2
    simp only [applyChatPatch] at h1 h2
    cases hm : patch.minPrice.or criteria.minPrice with
    | none => simp [hm] at h1 h2
    | some x =>
      cases hM : patch.maxPrice.or criteria.maxPrice with
      | none => simp [hm, hM] at h1 h2
      | some y =>
        simp only [hm, hM] at h1 h2
        split_ifs at h1 h2 with h <;> simp at h1 h2 <;> omega
  · intro criteria parsed a b h1 h2
    simp only [applyParsedPatch] at h1 h2
    cases hm : parsed.minPrice.or criteria.minPrice with
    | none => simp [hm] at h1 h2
    | some x =>
      cases hM : parsed.maxPrice.or criteria.maxPrice with
      | none => simp [hm, hM] at h1 h2
      | some y =>
        simp only [hm, hM] at h1 h2
        split_ifs at h1 h2 with h <;> simp at h1 h2 <;> omega

/-- C9 witness: concrete violating patches get swapped by all three
operations. -/
theorem C9_price_swap_invariant_witness :
    ((1 : Int) ≤ 3) ∧ ((1 : Int) ≤ 2) ∧ ((2 : Int) ≤ 4) := by
  refine ⟨?_, ?_, ?_⟩
  · exact C9_price_swap_invariant.1 { minPrice := some 3, maxPrice := some 1 } 1 3
      (by decide) (by decide)
  · exact C9_price_swap_invariant.2.1 {} { minPrice := some 2, maxPrice := some 1 } 1 2
      (by decide) (by decide)
  · exact C9_price_swap_invariant.2.2 {} { minPrice := some 4, maxPrice := some 2 } 2 4
      (by decide) (by decide)

/-! ## Curation diversity pass (buzz-curate) -/

structure ArticleForCuration where
  id : String
  title : String := ""
  url : String := ""
  summary : Option String := none
  source_id : String
deriving DecidableEq, Repr

/-- Lookup of an article by id (a JS Map built from a list keeps the last
entry for a duplicated key). -/
def lookupArticle (articles : List ArticleForCuration) (id : String) :
    Option ArticleForCuration :=
  articles.reverse.find? (fun a => a.id == id)

/-- The mutable state of diversifyCuratedArticleIds: picks in order, the
used set, and the per-source pick counts. -/
structure DivState where
  picks : List String
  used : List String
  sourceCount : List (String × Nat)
deriving DecidableEq, Repr

def countOf (counts : List (String × Nat)) (src : String) : Nat :=
  match counts.find? (fun p => p.1 == src) with
  | some p => p.2
  | none => 0

def bumpCount (counts : List (String × Nat)) (src : String) : List (String × Nat) :=
  if counts.any (fun p => p.1 == src) then
    counts.map (fun p => if p.1 == src then (p.1, p.2 + 1) else p)
  else counts ++ [(src, 1)]

/-- The add closure of diversifyCuratedArticleIds: skip used ids and
unknown ids, respect the per-source cap unless overflow is allowed. -/
def addPick (articles : List ArticleForCuration) (maxPerSource : Nat)
    (allowOverflow : Bool) (st : DivState) (id : String) : DivState :=
  if st.used.contains id then st
  else
    match lookupArticle articles id with
    | none => st
    | some a =>
      let current := countOf st.sourceCount a.source_id
      if !allowOverflow && maxPerSource ≤ current then st
      else
        { picks := st.picks ++ [id], used := st.used ++ [id],
          sourceCount := bumpCount st.sourceCount a.source_id }

/-- Pass 1: pick the first item of each distinct source until the target
or the minimum source count is reached. -/
def diversityPass1 (articles : List ArticleForCuration)
    (target maxPerSource minSources : Nat) :
    List String → DivState → DivState
  | [], st => st
  | id :: rest, st =>
    if target ≤ st.picks.length then st
    else
      match lookupArticle articles id with
      | none => diversityPass1 articles target maxPerSource minSources rest st
      | some a =>
        if 0 < countOf st.sourceCount a.source_id then
          diversityPass1 articles target maxPerSource minSources rest st
        else
          let st2 := addPick articles maxPerSource false st id
          if minSources ≤ st2.sourceCount.length then st2
          else diversityPass1 articles target maxPerSource minSources rest st2

/-- Passes 2 and 3: fill remaining slots from a list, respecting the cap
unless overflow is allowed. -/
def diversityFill (articles : List ArticleForCuration) (target maxPerSource : Nat)
    (allowOverflow : Bool) : List String → DivState → DivState
  | [], st => st
  | id :: rest, st =>
    if target ≤ st.picks.length then st
    else diversityFill articles target maxPerSource allowOverflow rest
      (addPick articles maxPerSource allowOverflow st id)

def diversifyCuratedArticleIds (preferredIds candidateIds : List String)
    (articles : List ArticleForCuration) (target maxPerSource minSources : Nat) :
    List String :=
  let preferred := preferredIds.filter (fun id => (lookupArticle articles id).isSome)
  let candidates := candidateIds.filter (fun id => (lookupArticle articles id).isSome)
  let ordered := dedupStrings (preferred ++ candidates)
  let st0 : DivState := { picks := [], used := [], sourceCount := [] }
  let st1 := diversityPass1 articles target maxPerSource minSources ordered st0
  let st2 := diversityFill articles target maxPerSource false preferred st1
  let st3 := diversityFill articles target maxPerSource false ordered st2
  let st4 := diversityFill articles target maxPerSource true ordered st3
  st4.picks.take target

/-- The source ids of a list of article ids, de-duplicated. -/
def sourcesOfIds (articles : List ArticleForCuration) (ids : List String) : List String :=
  dedupStrings (ids.filterMap (fun id => (lookupArticle articles id).map
    (fun a => a.source_id)))

/-- The distinct valid ids supplied to the diversity pass, in its own
preferred-then-candidate order. -/
def validCuratedIds (preferredIds candidateIds : List String)
    (articles : List ArticleForCuration) : List String :=
  dedupStrings (preferredIds.filter (fun id => (lookupArticle articles id).isSome) ++
    candidateIds.filter (fun id => (lookupArticle articles id).isSome))



theorem foldlDedup_spec (l : List String) :
    ∀ out : List String, out.Nodup →
      ((l.foldl (fun out id => if out.contains id then out else out ++ [id]) out).Nodup ∧
       (∀ a, a ∈ l.foldl (fun out id => if out.contains id then out else out ++ [id]) out ↔
          (a ∈ out ∨ a ∈ l))) := by
  induction l with
  | nil => intro out h; simpa using h
  | cons x xs ih =>
    intro out hnd
    simp only [List.foldl_cons]
    by_cases hx : out.contains x
    · rw [if_pos hx]
      rcases ih out hnd with ⟨h1, h2⟩
      refine ⟨h1, fun a => ?_⟩
      rw [h2]
      have hxm : x ∈ out := by simpa using hx
      constructor
      · rintro (h | h)
        · exact Or.inl h
        · exact Or.inr (List.mem_cons_of_mem x h)
      · rintro (h | h)
        · exact Or.inl h
        · rcases List.mem_cons.mp h with rfl | h
          · exact Or.inl hxm
          · exact Or.inr h
    · rw [if_neg hx]
      have hxm : x ∉ out := by simpa using hx
      have hnd2 : (out ++ [x]).Nodup := by
        simp [List.nodup_append, hnd, hxm]
      rcases ih (out ++ [x]) hnd2 with ⟨h1, h2⟩
      refine ⟨h1, fun a => ?_⟩
      rw [h2]
      simp [List.mem_append, or_assoc, List.mem_cons]

theorem dedupStrings_nodup (l : List String) : (dedupStrings l).Nodup :=
  (foldlDedup_spec l [] List.nodup_nil).1

theorem mem_dedupStrings (l : List String) (a : String) :
    a ∈ dedupStrings l ↔ a ∈ l := by
  have h := (foldlDedup_spec l [] List.nodup_nil).2 a
  simpa [dedupStrings] using h



def pickedSources (articles : List ArticleForCuration) (ids : List String) : List String :=
  ids.filterMap (fun id => (lookupArticle articles id).map (fun a => a.source_id))

theorem sourcesOfIds_eq (articles : List ArticleForCuration) (ids : List String) :
    sourcesOfIds articles ids = dedupStrings (pickedSources articles ids) := rfl

theorem dedupStrings_append_one (l : List String) (x : String) :
    dedupStrings (l ++ [x]) =
      if (dedupStrings l).contains x then dedupStrings l
      else dedupStrings l ++ [x] := by
  unfold dedupStrings
  rw [List.foldl_append]
  rfl

theorem countOf_pos_iff (counts : List (String × Nat)) (src : String)
    (hpos : ∀ p ∈ counts, 0 < p.2) :
    0 < countOf counts src ↔ src ∈ counts.map Prod.fst := by
  unfold countOf
  cases hf : counts.find? (fun p => p.1 == src) with
  | none =>
    simp only
    constructor
    · omega
    · intro hmem
      exfalso
      rcases List.mem_map.mp hmem with ⟨p, hp, hps⟩
      have := List.find?_eq_none.mp hf p hp
      simp [hps] at this
  | some p =>
    have hmem := List.mem_of_find?_eq_some hf
    have hpred := List.find?_some hf
    simp only
    constructor
    · intro _
      exact List.mem_map.mpr ⟨p, hmem, by simpa using hpred⟩
    · intro _
      exact hpos p hmem

theorem bumpCount_keys (counts : List (String × Nat)) (src : String) :
    (bumpCount counts src).map Prod.fst =
      (if counts.any (fun p => p.1 == src) then counts.map Prod.fst
       else counts.map Prod.fst ++ [src]) := by
  unfold bumpCount
  split_ifs with h
  · rw [List.map_map]
    refine List.map_congr_left ?_
    intro p _
    simp only [Function.comp]
    split_ifs <;> rfl
  · simp

theorem bumpCount_pos (counts : List (String × Nat)) (src : String)
    (hpos : ∀ p ∈ counts, 0 < p.2) :
    ∀ p ∈ bumpCount counts src, 0 < p.2 := by
  unfold bumpCount
  split_ifs with h
  · intro p hp
    rcases List.mem_map.mp hp with ⟨q, hq, rfl⟩
    have hq2 := hpos q hq
    split_ifs
    · simp
    · exact hq2
  · intro p hp
    rcases List.mem_append.mp hp with hp | hp
    · exact hpos p hp
    · rcases List.mem_singleton.mp hp with rfl
      simp

theorem any_fst_iff (counts : List (String × Nat)) (src : String) :
    counts.any (fun p => p.1 == src) = true ↔ src ∈ counts.map Prod.fst := by
  rw [List.any_eq_true]
  constructor
  · rintro ⟨p, hp, hps⟩
    exact List.mem_map.mpr ⟨p, hp, by simpa using hps⟩
  · intro h
    rcases List.mem_map.mp h with ⟨p, hp, hps⟩
    exact ⟨p, hp, by simpa using hps⟩

/-- Invariants of the diversify state: the used set mirrors the picks,
picks are distinct valid ids, and the per-source counters track exactly
the distinct sources of the picks with positive counts. -/
structure DivWF (articles : List ArticleForCuration) (st : DivState) : Prop where
  used_eq : st.used = st.picks
  nodup : st.picks.Nodup
  valid : ∀ id ∈ st.picks, (lookupArticle articles id).isSome
  keys_eq : st.sourceCount.map Prod.fst = dedupStrings (pickedSources articles st.picks)
  pos : ∀ p ∈ st.sourceCount, 0 < p.2

theorem pickedSources_append (articles : List ArticleForCuration) (l1 l2 : List String) :
    pickedSources articles (l1 ++ l2) =
      pickedSources articles l1 ++ pickedSources articles l2 := by
  unfold pickedSources
  exact List.filterMap_append _ _ _

theorem addPick_WF (articles : List ArticleForCuration) (mps : Nat) (allow : Bool)
    (st : DivState) (id : String) (h : DivWF articles st) :
    DivWF articles (addPick articles mps allow st id) ∧
    List.IsPrefix st.picks (addPick articles mps allow st id).picks ∧
    List.IsPrefix (st.sourceCount.map Prod.fst)
      ((addPick articles mps allow st id).sourceCount.map Prod.fst) := by
  unfold addPick
  by_cases hused : st.used.contains id
  · rw [if_pos hused]
    exact ⟨h, List.prefix_refl _, List.prefix_refl _⟩
  · rw [if_neg hused]
    cases hl : lookupArticle articles id with
    | none => exact ⟨h, List.prefix_refl _, List.prefix_refl _⟩
    | some a =>
      simp only
      by_cases hcap : (!allow && decide (mps ≤ countOf st.sourceCount a.source_id)) = true
      · rw [if_pos hcap]
        exact ⟨h, List.prefix_refl _, List.prefix_refl _⟩
      · rw [if_neg hcap]
        have hidnot : id ∉ st.picks := by
          intro hmem
          apply hused
          rw [h.used_eq]
          simpa using hmem
        have hps : pickedSources articles (st.picks ++ [id]) =
            pickedSources articles st.picks ++ [a.source_id] := by
          rw [pickedSources_append]
          simp [pickedSources, hl]
        constructor
        · refine ⟨?_, ?_, ?_, ?_, ?_⟩
          · simp only
            rw [h.used_eq]
          · simp only
            simp [List.nodup_append, h.nodup, hidnot]
          · intro x hx
            rcases List.mem_append.mp hx with hx | hx
            · exact h.valid x hx
            · rcases List.mem_singleton.mp hx with rfl
              simp [hl]
          · simp only
            rw [bumpCount_keys, hps, dedupStrings_append_one, ← h.keys_eq]
            by_cases hany : st.sourceCount.any (fun p => p.1 == a.source_id)
            · rw [if_pos hany]
              have : a.source_id ∈ st.sourceCount.map Prod.fst :=
                (any_fst_iff _ _).mp hany
              rw [if_pos (by simpa using this)]
            · rw [if_neg hany]
              have : a.source_id ∉ st.sourceCount.map Prod.fst := by
                intro hc
                exact hany ((any_fst_iff _ _).mpr hc)
              rw [if_neg (by simpa using this)]
          · simp only
            exact bumpCount_pos _ _ h.pos
        · constructor
          · exact ⟨[id], rfl⟩
          · simp only
            rw [bumpCount_keys]
            split_ifs
            · exact List.prefix_refl _
            · exact ⟨[a.source_id], rfl⟩





theorem diversityFill_WF (articles : List ArticleForCuration) (target mps : Nat)
    (allow : Bool) :
    ∀ (l : List String) (st : DivState), DivWF articles st →
      DivWF articles (diversityFill articles target mps allow l st) ∧
      List.IsPrefix st.picks (diversityFill articles target mps allow l st).picks := by
  intro l
  induction l with
  | nil => intro st h; exact ⟨h, List.prefix_refl _⟩
  | cons id rest ih =>
    intro st h
    rw [diversityFill]
    by_cases hlen : target ≤ st.picks.length
    · rw [if_pos hlen]
      exact ⟨h, List.prefix_refl _⟩
    · rw [if_neg hlen]
      rcases addPick_WF articles mps allow st id h with ⟨h2, hpre, _⟩
      rcases ih _ h2 with ⟨h3, hpre2⟩
      exact ⟨h3, hpre.trans hpre2⟩

theorem addPick_overflow_mem (articles : List ArticleForCuration) (mps : Nat)
    (st : DivState) (id : String) (h : DivWF articles st)
    (hvalid : (lookupArticle articles id).isSome = true) :
    id ∈ (addPick articles mps true st id).picks := by
  rw [addPick]
  by_cases hused : st.used.contains id
  · rw [if_pos hused]
    rw [← h.used_eq]
    simpa using hused
  · rw [if_neg hused]
    cases hl : lookupArticle articles id with
    | none => rw [hl] at hvalid; simp at hvalid
    | some a => simp

theorem diversityFill_complete (articles : List ArticleForCuration) (target mps : Nat) :
    ∀ (l : List String) (st : DivState), DivWF articles st →
      (diversityFill articles target mps true l st).picks.length < target →
      ∀ id ∈ l, (lookupArticle articles id).isSome = true →
        id ∈ (diversityFill articles target mps true l st).picks := by
  intro l
  induction l with
  | nil =>
    intro st h hlen id hid
    simp at hid
  | cons x rest ih =>
    intro st h hlen id hid hval
    rw [diversityFill] at hlen ⊢
    by_cases hl : target ≤ st.picks.length
    · rw [if_pos hl] at hlen ⊢
      exact absurd hl (not_le.mpr hlen)
    · rw [if_neg hl] at hlen ⊢
      rcases addPick_WF articles mps true st x h with ⟨h2, hpre, _⟩
      rcases List.mem_cons.mp hid with rfl | hid2
      · have hmem := addPick_overflow_mem articles mps st id h hval
        have hpre2 := (diversityFill_WF articles target mps true rest _ h2).2
        exact hpre2.subset hmem
      · exact ih _ h2 hlen id hid2 hval

theorem diversityPass1_WFonly (articles : List ArticleForCuration)
    (target mps minSources : Nat) :
    ∀ (l : List String) (st : DivState), DivWF articles st →
      DivWF articles (diversityPass1 articles target mps minSources l st) ∧
      List.IsPrefix st.picks (diversityPass1 articles target mps minSources l st).picks := by
  intro l
  induction l with
  | nil => intro st h; exact ⟨h, List.prefix_refl _⟩
  | cons id rest ih =>
    intro st h
    rw [diversityPass1]
    by_cases hlen : target ≤ st.picks.length
    · rw [if_pos hlen]
      exact ⟨h, List.prefix_refl _⟩
    · rw [if_neg hlen]
      cases hl : lookupArticle articles id with
      | none => exact ih st h
      | some a =>
        simp only
        by_cases hcnt : 0 < countOf st.sourceCount a.source_id
        · rw [if_pos hcnt]
          exact ih st h
        · rw [if_neg hcnt]
          rcases addPick_WF articles mps false st id h with ⟨h2, hpre, _⟩
          by_cases hmin : minSources ≤ (addPick articles mps false st id).sourceCount.length
          · rw [if_pos hmin]
            exact ⟨h2, hpre⟩
          · rw [if_neg hmin]
            rcases ih _ h2 with ⟨h3, hpre2⟩
            exact ⟨h3, hpre.trans hpre2⟩

theorem addPick_new_source (articles : List ArticleForCuration) (mps : Nat)
    (st : DivState) (id : String) (a : ArticleForCuration)
    (h : DivWF articles st) (hmps : 1 ≤ mps)
    (hl : lookupArticle articles id = some a)
    (hcnt : ¬ 0 < countOf st.sourceCount a.source_id) :
    addPick articles mps false st id =
      { picks := st.picks ++ [id], used := st.used ++ [id],
        sourceCount := st.sourceCount ++ [(a.source_id, 1)] } := by
  have hkey : a.source_id ∉ st.sourceCount.map Prod.fst := by
    intro hc
    exact hcnt ((countOf_pos_iff _ _ h.pos).mpr hc)
  have hused : ¬ st.used.contains id = true := by
    intro hc
    apply hkey
    rw [h.keys_eq]
    have hidmem : id ∈ st.picks := by
      rw [← h.used_eq]
      simpa using hc
    rw [mem_dedupStrings]
    unfold pickedSources
    refine List.mem_filterMap.mpr ⟨id, hidmem, ?_⟩
    rw [hl]
    rfl
  rw [addPick, if_neg hused, hl]
  simp only
  have hc0 : countOf st.sourceCount a.source_id = 0 := by omega
  rw [hc0]
  have hcap : (!false && decide (mps ≤ 0)) = false := by
    simp
    omega
  rw [hcap]
  simp only [Bool.false_eq_true, if_false]
  have hany : st.sourceCount.any (fun p => p.1 == a.source_id) = false := by
    cases hh : st.sourceCount.any (fun p => p.1 == a.source_id)
    · rfl
    · exact absurd ((any_fst_iff _ _).mp hh) hkey
  rw [bumpCount, hany]
  simp



theorem diversityPass1_spec (articles : List ArticleForCuration)
    (target mps minSources : Nat) (hmps : 1 ≤ mps) (hts : minSources ≤ target) :
    ∀ (l : List String) (st : DivState), DivWF articles st →
      st.picks.length = st.sourceCount.length →
      st.sourceCount.length < minSources →
      (DivWF articles (diversityPass1 articles target mps minSources l st) ∧
       (diversityPass1 articles target mps minSources l st).picks.length =
         (diversityPass1 articles target mps minSources l st).sourceCount.length ∧
       (diversityPass1 articles target mps minSources l st).sourceCount.length ≤ minSources ∧
       List.IsPrefix st.picks (diversityPass1 articles target mps minSources l st).picks ∧
       List.IsPrefix (st.sourceCount.map Prod.fst)
         ((diversityPass1 articles target mps minSources l st).sourceCount.map Prod.fst) ∧
       (minSources ≤ (diversityPass1 articles target mps minSources l st).sourceCount.length ∨
        ∀ id ∈ l, ∀ a, lookupArticle articles id = some a →
          a.source_id ∈
            (diversityPass1 articles target mps minSources l st).sourceCount.map Prod.fst)) := by
  intro l
  induction l with
  | nil =>
    intro st h heq hlt
    rw [diversityPass1]
    refine ⟨h, heq, by omega, List.prefix_refl _, List.prefix_refl _, Or.inr ?_⟩
    intro id hid
    simp at hid
  | cons id rest ih =>
    intro st h heq hlt
    rw [diversityPass1]
    have hlen : ¬ target ≤ st.picks.length := by omega
    rw [if_neg hlen]
    cases hl : lookupArticle articles id with
    | none =>
      rcases ih st h heq hlt with ⟨hWF, heq2, hle, hpre, hkeys, hdisj⟩
      refine ⟨hWF, heq2, hle, hpre, hkeys, ?_⟩
      rcases hdisj with hd | hd
      · exact Or.inl hd
      · refine Or.inr ?_
        intro id2 hid2 a2 ha2
        rcases List.mem_cons.mp hid2 with rfl | hid3
        · rw [hl] at ha2
          cases ha2
        · exact hd id2 hid3 a2 ha2
    | some a =>
      simp only
      by_cases hcnt : 0 < countOf st.sourceCount a.source_id
      · rw [if_pos hcnt]
        rcases ih st h heq hlt with ⟨hWF, heq2, hle, hpre, hkeys, hdisj⟩
        refine ⟨hWF, heq2, hle, hpre, hkeys, ?_⟩
        rcases hdisj with hd | hd
        · exact Or.inl hd
        · refine Or.inr ?_
          intro id2 hid2 a2 ha2
          rcases List.mem_cons.mp hid2 with rfl | hid3
          · rw [hl] at ha2
            injection ha2 with haa
            subst haa
            exact hkeys.subset ((countOf_pos_iff _ _ h.pos).mp hcnt)
          · exact hd id2 hid3 a2 ha2
      · rw [if_neg hcnt]
        rw [addPick_new_source articles mps st id a h hmps hl hcnt]
        rcases addPick_WF articles mps false st id h with ⟨h2raw, _, _⟩
        rw [addPick_new_source articles mps st id a h hmps hl hcnt] at h2raw
        have hlen2 : (st.sourceCount ++ [(a.source_id, 1)]).length =
            st.sourceCount.length + 1 := by simp
        have hpicks2 : (st.picks ++ [id]).length = st.picks.length + 1 := by simp
        by_cases hmin : minSources ≤ (st.sourceCount ++ [(a.source_id, 1)]).length
        · rw [if_pos hmin]
          refine ⟨h2raw, ?_, ?_, List.prefix_append _ _, ?_, Or.inl hmin⟩
          · simp only [hlen2, hpicks2]
            omega
          · simp only [hlen2]
            omega
          · simp only [List.map_append]
            exact List.prefix_append _ _
        · rw [if_neg hmin]
          have hlt2 : (st.sourceCount ++ [(a.source_id, 1)]).length < minSources := by
            omega
          have heq3 : (st.picks ++ [id]).length =
              (st.sourceCount ++ [(a.source_id, 1)]).length := by
            simp only [hlen2, hpicks2]
            omega
          rcases ih _ h2raw heq3 hlt2 with ⟨hWF, heq2, hle, hpre, hkeys, hdisj⟩
          refine ⟨hWF, heq2, hle, ?_, ?_, ?_⟩
          · exact (List.prefix_append st.picks [id]).trans hpre
          · refine List.IsPrefix.trans ?_ hkeys
            simp only [List.map_append]
            exact List.prefix_append _ _
          · rcases hdisj with hd | hd
            · exact Or.inl hd
            · refine Or.inr ?_
              intro id2 hid2 a2 ha2
              rcases List.mem_cons.mp hid2 with rfl | hid3
              · rw [hl] at ha2
                injection ha2 with haa
                subst haa
                refine hkeys.subset ?_
                simp only [List.map_append]
                simp
              · exact hd id2 hid3 a2 ha2



/-- C7: with target at least minSources and a per-source cap of at least
1, the diversity pass returns exactly target distinct ids whenever at
least target distinct valid ids were supplied, and its output draws from
at least minSources distinct sources whenever the valid ids span that
many sources. -/
theorem C7_diversity_pass_guarantees (preferredIds candidateIds : List String)
    (articles : List ArticleForCuration) (target maxPerSource minSources : Nat)
    (hmps : 1 ≤ maxPerSource) (hts : minSources ≤ target) :
    (target ≤ (validCuratedIds preferredIds candidateIds articles).length →
      ((diversifyCuratedArticleIds preferredIds candidateIds articles
          target maxPerSource minSources).length = target ∧
       (diversifyCuratedArticleIds preferredIds candidateIds articles
          target maxPerSource minSources).Nodup)) ∧
    (minSources ≤ (sourcesOfIds articles
        (validCuratedIds preferredIds candidateIds articles)).length →
      minSources ≤ (sourcesOfIds articles
        (diversifyCuratedArticleIds preferredIds candidateIds articles
          target maxPerSource minSources)).length) := by
  set preferred := preferredIds.filter (fun id => (lookupArticle articles id).isSome)
    with hpref
  set candidates := candidateIds.filter (fun id => (lookupArticle articles id).isSome)
    with hcand
  set ordered := dedupStrings (preferred ++ candidates) with hord
  set st0 : DivState := { picks := [], used := [], sourceCount := [] } with hst0
  set st1 := diversityPass1 articles target maxPerSource minSources ordered st0 with hst1
  set st2 := diversityFill articles target maxPerSource false preferred st1 with hst2
  set st3 := diversityFill articles target maxPerSource false ordered st2 with hst3
  set st4 := diversityFill articles target maxPerSource true ordered st3 with hst4
  have hdiv : diversifyCuratedArticleIds preferredIds candidateIds articles
      target maxPerSource minSources = st4.picks.take target := rfl
  have hvc : validCuratedIds preferredIds candidateIds articles = ordered := rfl
  have hWF0 : DivWF articles st0 := by
    refine ⟨rfl, List.nodup_nil, ?_, rfl, ?_⟩
    · intro id hcon
      exact absurd hcon (List.not_mem_nil id)
    · intro p hcon
      exact absurd hcon (List.not_mem_nil p)
  have hordValid : ∀ id ∈ ordered, (lookupArticle articles id).isSome = true := by
    intro id hid
    rw [hord, mem_dedupStrings] at hid
    rcases List.mem_append.mp hid with hmem | hmem
    · exact (List.mem_filter.mp hmem).2
    · exact (List.mem_filter.mp hmem).2
  have hordNodup : ordered.Nodup := dedupStrings_nodup _
  have h1 := diversityPass1_WFonly articles target maxPerSource minSources ordered st0 hWF0
  have h2 := diversityFill_WF articles target maxPerSource false preferred st1 h1.1
  have h3 := diversityFill_WF articles target maxPerSource false ordered st2 h2.1
  have h4 := diversityFill_WF articles target maxPerSource true ordered st3 h3.1
  constructor
  · intro htarget
    rw [hvc, hord] at htarget
    by_cases hlen : st4.picks.length < target
    · exfalso
      have hsub : ordered ⊆ st4.picks := by
        intro id hid
        exact diversityFill_complete articles target maxPerSource ordered st3 h3.1
          hlen id hid (hordValid id hid)
      have hle := (List.subperm_of_subset hordNodup hsub).length_le
      rw [hord] at hle
      omega
    · rw [hdiv]
      constructor
      · rw [List.length_take]
        omega
      · exact h4.1.nodup.sublist (List.take_sublist _ _)
  · intro hsrc
    rcases Nat.eq_zero_or_pos minSources with hz | hposm
    · rw [hz]
      exact Nat.zero_le _
    · have hpre0 : st0.picks.length = st0.sourceCount.length := rfl
      have hlt0 : st0.sourceCount.length < minSources := hposm
      rcases diversityPass1_spec articles target maxPerSource minSources hmps hts
        ordered st0 hWF0 hpre0 hlt0 with ⟨hWF1, heq1, hle1, hpre1, hkeys1, hdisj⟩
      rw [hvc] at hsrc
      have hkeyslen : minSources ≤ st1.sourceCount.length := by
        rcases hdisj with hd | hd
        · exact hd
        · have hsubset : sourcesOfIds articles ordered ⊆
              st1.sourceCount.map Prod.fst := by
            intro src hsrcmem
            rw [sourcesOfIds_eq, mem_dedupStrings] at hsrcmem
            rcases List.mem_filterMap.mp hsrcmem with ⟨id, hid, hmap⟩
            cases hla : lookupArticle articles id with
            | none => rw [hla] at hmap; cases hmap
            | some a =>
              rw [hla] at hmap
              have hmm : a.source_id = src := by simpa using hmap
              rw [← hmm]
              exact hd id hid a hla
          have hndo : (sourcesOfIds articles ordered).Nodup := by
            rw [sourcesOfIds_eq]
            exact dedupStrings_nodup _
          have hlenle := (List.subperm_of_subset hndo hsubset).length_le
          have hml : (st1.sourceCount.map Prod.fst).length = st1.sourceCount.length :=
            List.length_map _ _
          omega
      have hkeyseq : sourcesOfIds articles st1.picks = st1.sourceCount.map Prod.fst := by
        rw [sourcesOfIds_eq, hWF1.keys_eq]
      have hpref14 : List.IsPrefix st1.picks st4.picks :=
        (h2.2.trans h3.2).trans h4.2
      rcases hpref14 with ⟨ext, hext⟩
      have hplen : st1.picks.length ≤ target := by
        rw [heq1] at *
        omega
      have htake : st4.picks.take target = st1.picks ++ ext.take (target - st1.picks.length) := by
        rw [← hext, List.take_append_eq_append_take, List.take_of_length_le hplen]
      have hsubsrc : sourcesOfIds articles st1.picks ⊆
          sourcesOfIds articles (st4.picks.take target) := by
        intro src hs
        rw [sourcesOfIds_eq, mem_dedupStrings] at hs ⊢
        rw [htake]
        unfold pickedSources at hs ⊢
        rw [List.filterMap_append]
        exact List.mem_append_left _ hs
      have hndsrc : (sourcesOfIds articles st1.picks).Nodup := by
        rw [sourcesOfIds_eq]
        exact dedupStrings_nodup _
      have hlen2 := (List.subperm_of_subset hndsrc hsubsrc).length_le
      have hml2 : (st1.sourceCount.map Prod.fst).length = st1.sourceCount.length :=
        List.length_map _ _
      rw [hdiv]
      rw [hkeyseq] at hlen2
      omega



def divWitnessArticles : List ArticleForCuration :=
  [{ id := "a1", source_id := "s1" },
   { id := "a2", source_id := "s2" },
   { id := "a3", source_id := "s3" },
   { id := "a4", source_id := "s4" },
   { id := "a5", source_id := "s5" }]

/-- C7 witness: five articles from five distinct sources with the caller
parameters target 5, cap 1, minSources 4. -/
theorem C7_diversity_pass_guarantees_witness :
    (diversifyCuratedArticleIds ["a1", "a2", "a3", "a4", "a5"]
      ["a1", "a2", "a3", "a4", "a5"] divWitnessArticles 5 1 4).length = 5 ∧
    4 ≤ (sourcesOfIds divWitnessArticles
      (diversifyCuratedArticleIds ["a1", "a2", "a3", "a4", "a5"]
        ["a1", "a2", "a3", "a4", "a5"] divWitnessArticles 5 1 4)).length := by
  have h := C7_diversity_pass_guarantees ["a1", "a2", "a3", "a4", "a5"] ["a1", "a2", "a3", "a4", "a5"]
    divWitnessArticles 5 1 4 (by decide) (by decide)
  exact ⟨(h.1 (by decide)).1, h.2 (by decide)⟩



def PREFERENCE_KEYWORDS : List String :=
  ["romantic", "casual", "lively", "cozy", "upscale", "intimate",
   "celebratory", "low-key", "trendy", "quiet", "outdoor", "date night",
   "cool", "italian", "mexican", "japanese", "sushi", "korean", "chinese",
   "thai", "vietnamese", "french", "spanish", "mediterranean", "steakhouse",
   "seafood", "pizza", "brunch", "cocktails", "vegetarian", "vegan",
   "gluten free", "gluten-free"]

def STOPWORD_PREFS : List String :=
  ["a", "an", "the", "place", "spot", "restaurant", "restaurants", "food",
   "for", "something", "with", "that", "and", "or", "to", "of", "in", "near"]

def prevNonWord : Option Char → Bool
  | none => true
  | some c => !isWordCh c

def nextNonWord : List Char → Bool
  | [] => true
  | c :: _ => !isWordCh c

def tryLitAt (lit : List Char) (s : List Char) : Option (List Char) :=
  if startsWithChars s lit then some (s.drop lit.length) else none

def takeDigits (s : List Char) : List Char := s.takeWhile isDigitCh

def digitsToNat (ds : List Char) : Nat :=
  ds.foldl (fun n c => n * 10 + (c.toNat - 48)) 0

def digitsAfterSpaces (rest : List Char) : Option Nat :=
  let r2 := rest.dropWhile isSpaceCh
  let ds := takeDigits r2
  if ds.isEmpty then none else some (digitsToNat ds)

/-- The first regex alternative of the party-size pattern at one position:
the literal party of or for, optional whitespace, then digits. -/
def partyAlt1At (s : List Char) : Option Nat :=
  match tryLitAt "party of".toList s with
  | some rest =>
    match digitsAfterSpaces rest with
    | some n => some n
    | none =>
      match tryLitAt "for".toList s with
      | some rest2 => digitsAfterSpaces rest2
      | none => none
  | none =>
    match tryLitAt "for".toList s with
    | some rest => digitsAfterSpaces rest
    | none => none

/-- The second regex alternative: bare digits (the optional people, guests
or diners suffix does not affect the captured number). -/
def partyAlt2At (s : List Char) : Option Nat :=
  let ds := takeDigits s
  if ds.isEmpty then none else some (digitsToNat ds)

/-- Leftmost match of the party-size regex, alternatives tried in order at
each position. -/
def findPartyNumber : List Char → Option Nat
  | [] => none
  | s@(_ :: rest) =>
    match partyAlt1At s with
    | some n => some n
    | none =>
      match partyAlt2At s with
      | some n => some n
      | none => findPartyNumber rest

/-- The whole-string digits pattern. -/
def numOnlyMatch (s : List Char) : Option Nat :=
  if !s.isEmpty && s.all isDigitCh then some (digitsToNat s) else none

/-- Party size extraction: the leftmost party-size match if its number is
in 1..20, otherwise the whole-string digits fallback under the same
range check. -/
def parsePartySize (lower : List Char) : Option Int :=
  let first : Option Int :=
    match findPartyNumber lower with
    | some n => if 1 ≤ n ∧ n ≤ 20 then some (Int.ofNat n) else none
    | none => none
  match first with
  | some n => some n
  | none =>
    match numOnlyMatch lower with
    | some n => if 1 ≤ n ∧ n ≤ 20 then some (Int.ofNat n) else none
    | none => none

/-- One freeform pattern at one position: one of the marker literals, then
at least one whitespace, then a maximal nonempty capture of characters
other than period, exclamation and question mark (when that capture is
empty the regex backtracks one whitespace character into the capture). -/
def tryAltsCapture : List (List Char) → List Char → Option (List Char × List Char)
  | [], _ => none
  | lit :: more, s =>
    match tryLitAt lit s with
    | some rest =>
      let spaces := rest.takeWhile isSpaceCh
      let afterSpaces := rest.dropWhile isSpaceCh
      let cap := afterSpaces.takeWhile (fun c => !(c == '.' || c == '!' || c == '?'))
      if spaces.isEmpty then tryAltsCapture more s
      else if !cap.isEmpty then some (cap, afterSpaces.drop cap.length)
      else if 2 ≤ spaces.length then
        some (spaces.drop (spaces.length - 1), afterSpaces)
      else tryAltsCapture more s
    | none => tryAltsCapture more s

def matchAllGo (alts : List (List Char)) : Nat → List Char → List (List Char)
  | 0, _ => []
  | _ + 1, [] => []
  | fuel + 1, s@(_ :: rest) =>
    match tryAltsCapture alts s with
    | some (cap, after) => cap :: matchAllGo alts fuel after
    | none => matchAllGo alts fuel rest

/-- All captures of one freeform pattern, scanning left to right and
resuming after each match. -/
def matchAllCaptures (alts : List (List Char)) (s : List Char) : List (List Char) :=
  matchAllGo alts s.length s

/-- A chunk-splitting delimiter at one position: comma, slash, ampersand,
or the word-bounded words and, or. Returns the delimiter length. -/
def splitDelimAt (prev : Option Char) (s : List Char) : Option Nat :=
  match s with
  | [] => none
  | c :: _ =>
    if c == ',' || c == '/' || c == '&' then some 1
    else if startsWithChars s "and".toList && prevNonWord prev &&
        nextNonWord (s.drop 3) then some 3
    else if startsWithChars s "or".toList && prevNonWord prev &&
        nextNonWord (s.drop 2) then some 2
    else none

def splitChunksGo (fuel : Nat) (prev : Option Char) (acc : List Char)
    (s : List Char) : List (List Char) :=
  match fuel, s with
  | 0, _ => [acc.reverse]
  | _ + 1, [] => [acc.reverse]
  | fuel + 1, s@(c :: rest) =>
    match splitDelimAt prev s with
    | some n =>
      acc.reverse ::
        splitChunksGo fuel (some ((s.take n).reverse.headD c)) [] (s.drop n)
    | none => splitChunksGo fuel (some c) (c :: acc) rest

def splitChunks (s : List Char) : List (List Char) :=
  splitChunksGo (s.length + 1) none [] s

def freeformChunkTokens (chunk : List Char) : List String :=
  (splitChunks chunk).filterMap (fun part =>
    let pref := normalizePhrase (String.mk part)
    if pref = "" then none
    else if STOPWORD_PREFS.contains pref then none
    else if pref.length ≤ 2 then none
    else some pref)

def extractFreeformPreferences (lower : List Char) : List String :=
  let chunks :=
    matchAllCaptures ["preference for".toList, "prefer".toList] lower ++
    matchAllCaptures ["looking for".toList, "look for".toList] lower ++
    matchAllCaptures ["something".toList] lower ++
    matchAllCaptures ["want".toList] lower
  chunks.foldl (fun tokens chunk => tokens ++ freeformChunkTokens chunk) []

def dollarRunAt (s : List Char) : Nat := (s.takeWhile (fun c => c == '$')).length

/-- The between price pattern at one position. The first capture can only
succeed when the whole first dollar run is at most 4 long (a longer run
leaves dollars in front of the and literal on every backtrack). -/
def betweenMatchAt (s : List Char) : Option (Nat × Nat) :=
  match tryLitAt "between".toList s with
  | none => none
  | some r1 =>
    let r2 := r1.dropWhile isSpaceCh
    let run1 := dollarRunAt r2
    if run1 = 0 ∨ 4 < run1 then none
    else
      let r3 := (r2.drop run1).dropWhile isSpaceCh
      match tryLitAt "and".toList r3 with
      | none => none
      | some r4 =>
        let r5 := r4.dropWhile isSpaceCh
        let run2 := dollarRunAt r5
        if run2 = 0 then none else some (run1, min run2 4)

def findBetween : List Char → Option (Nat × Nat)
  | [] => none
  | s@(_ :: rest) =>
    match betweenMatchAt s with
    | some p => some p
    | none => findBetween rest

def underMatchAt (s : List Char) : Option Nat :=
  let tryOne : List Char → Option Nat := fun lit =>
    match tryLitAt lit s with
    | none => none
    | some rest =>
      let r2 := rest.dropWhile isSpaceCh
      let run := dollarRunAt r2
      if run = 0 then none else some (min run 4)
  match tryOne "under".toList with
  | some n => some n
  | none =>
    match tryOne "up to".toList with
    | some n => some n
    | none => tryOne "max".toList

def findUnder : List Char → Option Nat
  | [] => none
  | s@(_ :: rest) =>
    match underMatchAt s with
    | some n => some n
    | none => findUnder rest

def findDollarRun : List Char → Option Nat
  | [] => none
  | s@(c :: rest) =>
    if c == '$' then some (min (dollarRunAt s) 4) else findDollarRun rest

/-- The price part of the heuristic parser: between range, or an under,
up to or max ceiling, or a bare dollar run setting both bounds. -/
def parsePrices (lower : List Char) : Option Int × Option Int :=
  match findBetween lower with
  | some (a, b) => (some (Int.ofNat (min a b)), some (Int.ofNat (max a b)))
  | none =>
    let maxP : Option Int := (findUnder lower).map (fun u => Int.ofNat u)
    match findDollarRun lower with
    | some e => if maxP.isNone then (some (Int.ofNat e), some (Int.ofNat e)) else (none, maxP)
    | none => (none, maxP)

/-- JS Date.getDay on an epoch day number (day 0 is a Thursday). -/
def getDay (d : Nat) : Nat := (d + 4) % 7

def numberTokens : List (List Char × Nat) :=
  [("one".toList, 1), ("two".toList, 2), ("three".toList, 3),
   ("four".toList, 4), ("five".toList, 5), ("1".toList, 1), ("2".toList, 2),
   ("3".toList, 3), ("4".toList, 4), ("5".toList, 5)]

/-- The weeks? suffix with a word boundary after it: an s is consumed
greedily when present, and then the next character must not be a word
character. -/
def weeksSuffixAt (s : List Char) : Bool :=
  match tryLitAt "week".toList s with
  | none => false
  | some r =>
    match r with
    | 's' :: r2 => nextNonWord r2
    | _ => nextNonWord r

def tokenThenWeeks : List (List Char × Nat) → List Char → Option Nat
  | [], _ => none
  | (tok, n) :: more, r =>
    if startsWithChars r tok then
      let r3 := (r.drop tok.length).dropWhile isSpaceCh
      if weeksSuffixAt r3 then some n else tokenThenWeeks more r
    else tokenThenWeeks more r

def nextWeeksAt (prev : Option Char) (s : List Char) : Option Nat :=
  if !prevNonWord prev then none
  else
    let tryFrom : List Char → Option Nat := fun r =>
      match tryLitAt "next ".toList r with
      | none => none
      | some r2 => tokenThenWeeks numberTokens r2
    match tryLitAt "in the ".toList s with
    | some r =>
      match tryFrom r with
      | some w => some w
      | none => tryFrom s
    | none => tryFrom s

def findNextWeeks : Option Char → List Char → Option Nat
  | _, [] => none
  | prev, s@(c :: rest) =>
    match nextWeeksAt prev s with
    | some w => some w
    | none => findNextWeeks (some c) rest

/-- A word-bounded literal occurrence anywhere in the text. -/
def hasBoundedLitGo (lit : List Char) : Option Char → List Char → Bool
  | _, [] => lit.isEmpty
  | prev, s@(c :: rest) =>
    (prevNonWord prev && startsWithChars s lit && nextNonWord (s.drop lit.length)) ||
      hasBoundedLitGo lit (some c) rest

def hasBoundedLit (lit : String) (s : List Char) : Bool :=
  hasBoundedLitGo lit.toList none s

def weekdayNames : List (List Char × Nat) :=
  [("friday".toList, 5), ("saturday".toList, 6), ("sunday".toList, 0),
   ("monday".toList, 1), ("tuesday".toList, 2), ("wednesday".toList, 3),
   ("thursday".toList, 4)]

def firstWeekdayAt : List (List Char × Nat) → List Char → Option Nat
  | [], _ => none
  | (name, d) :: more, r =>
    if startsWithChars r name && nextNonWord (r.drop name.length) then some d
    else firstWeekdayAt more r

/-- The next-or-this weekday pattern at one position. -/
def nextThisWeekdayAt (prev : Option Char) (s : List Char) : Option Nat :=
  if !prevNonWord prev then none
  else
    match tryLitAt "next".toList s with
    | some r => firstWeekdayAt weekdayNames (r.dropWhile isSpaceCh)
    | none =>
      match tryLitAt "this".toList s with
      | some r => firstWeekdayAt weekdayNames (r.dropWhile isSpaceCh)
      | none => none

def findNextThisWeekday : Option Char → List Char → Option Nat
  | _, [] => none
  | prev, s@(c :: rest) =>
    match nextThisWeekdayAt prev s with
    | some d => some d
    | none => findNextThisWeekday (some c) rest

/-- A word-bounded weeks or week occurrence. -/
def hasWeeksWordGo : Option Char → List Char → Bool
  | _, [] => false
  | prev, s@(c :: rest) =>
    (prevNonWord prev && weeksSuffixAt s) || hasWeeksWordGo (some c) rest

def hasWeeksWord (s : List Char) : Bool := hasWeeksWordGo none s

def weekdayLits : List String :=
  ["friday", "saturday", "sunday", "monday", "tuesday", "wednesday", "thursday"]

def fallbackTimeWords : List String :=
  ["when", "friday", "saturday", "sunday", "monday", "tuesday", "wednesday",
   "thursday", "week", "tonight", "tomorrow", "next", "month"]

def hasAnyBoundedLit (lits : List String) (s : List Char) : Bool :=
  lits.any (fun lit => hasBoundedLit lit s)

/-- The date part of the heuristic parser, at day granularity over an
abstract today. Branch order mirrors the else-if chain of the source. -/
def parseDates (today : Nat) (lower : List Char) : Option (Nat × Nat) :=
  match findNextWeeks none lower with
  | some w =>
    let days := min (w * 7) 60
    some (today, today + days)
  | none =>
    if hasBoundedLit "next week" lower then some (today + 7, today + 13)
    else if hasBoundedLit "next month" lower then some (today, today + 31)
    else if hasBoundedLit "tonight" lower || hasBoundedLit "today" lower then
      some (today, today)
    else if hasBoundedLit "tomorrow" lower then some (today + 1, today + 1)
    else
      match findNextThisWeekday none lower with
      | some targetDay =>
        let diff0 := (targetDay + 7 - getDay today) % 7
        let diff :=
          if containsChars lower "next ".toList ∧ diff0 = 0 then 7 else diff0
        some (today + diff, today + diff)
      | none =>
        if hasAnyBoundedLit weekdayLits lower && hasWeeksWord lower then
          some (today, today + 21)
        else if hasAnyBoundedLit fallbackTimeWords lower then
          some (today, today + 14)
        else none

/-- The heuristic criteria parser of the plan client, over an abstract
run day. -/
def parseMessageForCriteria (today : Nat) (text : String) : CriteriaPatch :=
  let lower := trimWsChars (text.toList.map lowerChar)
  let partySize := parsePartySize lower
  let foundByKeyword := PREFERENCE_KEYWORDS.filter
    (fun v => containsChars lower v.toList)
  let foundFreeform := extractFreeformPreferences lower
  let prefs := uniquePhrases (foundByKeyword ++ foundFreeform)
  let vibeTags := if prefs.isEmpty then none else some prefs
  let prices := parsePrices lower
  let dates := parseDates today lower
  { dateStart := dates.map Prod.fst, dateEnd := dates.map Prod.snd,
    partySize := partySize, vibeTags := vibeTags,
    minPrice := prices.1, maxPrice := prices.2 }



/-- The scenario chat message of the parser test. -/
def scenarioMessage : String := "date night next Friday for 2, something romantic"

/-- C10: for any run day, the heuristic parser applied to the scenario
message yields party size 2, a same-day date range equal to the next
occurrence of Friday strictly after today (a full week ahead when today
is a Friday), and vibe tags including romantic. -/
theorem C10_heuristic_parse_scenario (today : Nat) :
    (parseMessageForCriteria today scenarioMessage).partySize = some 2 ∧
    (∃ d, (parseMessageForCriteria today scenarioMessage).dateStart = some d ∧
      (parseMessageForCriteria today scenarioMessage).dateEnd = some d ∧
      today < d ∧ d ≤ today + 7 ∧ getDay d = 5) ∧
    (∃ tags, (parseMessageForCriteria today scenarioMessage).vibeTags = some tags ∧
      "romantic" ∈ tags) := by
  refine ⟨?_, ?_, ?_⟩
  · show parsePartySize (trimWsChars (scenarioMessage.toList.map lowerChar)) = some 2
    decide
  · have hstart : (parseMessageForCriteria today scenarioMessage).dateStart =
        (parseDates today (trimWsChars (scenarioMessage.toList.map lowerChar))).map
          Prod.fst := rfl
    have hend : (parseMessageForCriteria today scenarioMessage).dateEnd =
        (parseDates today (trimWsChars (scenarioMessage.toList.map lowerChar))).map
          Prod.snd := rfl
    have h1 : findNextWeeks none (trimWsChars (scenarioMessage.toList.map lowerChar)) =
        none := by decide
    have h2 : hasBoundedLit "next week"
        (trimWsChars (scenarioMessage.toList.map lowerChar)) = false := by decide
    have h3 : hasBoundedLit "next month"
        (trimWsChars (scenarioMessage.toList.map lowerChar)) = false := by decide
    have h4a : hasBoundedLit "tonight"
        (trimWsChars (scenarioMessage.toList.map lowerChar)) = false := by decide
    have h4b : hasBoundedLit "today"
        (trimWsChars (scenarioMessage.toList.map lowerChar)) = false := by decide
    have h5 : hasBoundedLit "tomorrow"
        (trimWsChars (scenarioMessage.toList.map lowerChar)) = false := by decide
    have h6 : findNextThisWeekday none
        (trimWsChars (scenarioMessage.toList.map lowerChar)) = some 5 := by decide
    have h7 : containsChars (trimWsChars (scenarioMessage.toList.map lowerChar))
        "next ".toList = true := by decide
    have hdates : parseDates today (trimWsChars (scenarioMessage.toList.map lowerChar)) =
        some (today + (if (5 + 7 - getDay today) % 7 = 0 then 7
                       else (5 + 7 - getDay today) % 7),
              today + (if (5 + 7 - getDay today) % 7 = 0 then 7
                       else (5 + 7 - getDay today) % 7)) := by
      simp only [parseDates, h1, h2, h3, h4a, h4b, h5, h6, h7]
      simp
    rw [hstart, hend, hdates]
    by_cases hz : (5 + 7 - getDay today) % 7 = 0
    · refine ⟨today + 7, ?_, ?_, ?_, ?_, ?_⟩
      · simp [hz]
      · simp [hz]
      · omega
      · omega
      · simp only [getDay] at hz ⊢
        omega
    · refine ⟨today + (5 + 7 - getDay today) % 7, ?_, ?_, ?_, ?_, ?_⟩
      · simp [hz]
      · simp [hz]
      · simp only [getDay] at hz ⊢
        omega
      · simp only [getDay] at hz ⊢
        omega
      · simp only [getDay] at hz ⊢
        omega
  · refine ⟨["romantic", "date night"], ?_, by decide⟩
    have hv : (parseMessageForCriteria today scenarioMessage).vibeTags =
        (if (uniquePhrases
            ((PREFERENCE_KEYWORDS.filter (fun v => containsChars
              (trimWsChars (scenarioMessage.toList.map lowerChar)) v.toList)) ++
              extractFreeformPreferences
                (trimWsChars (scenarioMessage.toList.map lowerChar)))).isEmpty then none
         else some (uniquePhrases
            ((PREFERENCE_KEYWORDS.filter (fun v => containsChars
              (trimWsChars (scenarioMessage.toList.map lowerChar)) v.toList)) ++
              extractFreeformPreferences
                (trimWsChars (scenarioMessage.toList.map lowerChar))))) := rfl
    rw [hv]
    decide

end Datenight
